import Mathlib

/-!
# Verification of the scheduling core of the andre-discord-bot repository

This file gives a shallow embedding of the scheduling subsystem of the
repository (recurrence match evaluator, recurrence validator, time parser,
event ledger, firing-loop selection, tool-catalog assembly, conversation
history effect, message chunking) and proves or refutes the frozen claims
about it.

Modelling conventions:
* JavaScript strings are modelled as `List Char` (`Str`); single-character
  `String.prototype.includes` becomes character membership, `split(c)`
  becomes `splitOnChar`.
* JavaScript `Number(s)` and `parseInt(s, 10)` are modelled on the fragment
  the scheduler actually feeds them (substrings of cron fields: digit
  strings, the empty string, or strings with embedded `,`/`-`), with `NaN`
  as `none`.  Comparisons and `%` against `NaN` are false, as in JS.
* Instants are epoch milliseconds (`Int`).  Timezone offsets are modelled
  as constants over the window considered (no DST transition inside a
  single parse), in milliseconds.
* The persisted ledger is the in-memory list of events; every store
  operation in the source is a whole-collection read-modify-write, so an
  operation is a function on that list.
-/

namespace AndreBot

/-- JavaScript strings, modelled as lists of characters. -/
abbrev Str := List Char

/-- ASCII decimal digit, the `\d` class of the source's regexes, as the
explicit ten-character set. -/
def isDigitChar (c : Char) : Bool :=
  c == '0' || c == '1' || c == '2' || c == '3' || c == '4' ||
  c == '5' || c == '6' || c == '7' || c == '8' || c == '9'

/-- ASCII whitespace, the `\s` class of the source's regexes
(unicode spaces are outside the model). -/
def isWsChar (c : Char) : Bool :=
  c == ' ' || c == '\t' || c == '\n' || c == '\r' || c == '\x0b' || c == '\x0c'

/-- Numeric value of a digit character. -/
def digitVal (c : Char) : Nat := c.toNat - '0'.toNat

/-- Numeric value of a digit string (most significant digit first). -/
def digitsToNat (s : Str) : Nat := s.foldl (fun acc c => 10 * acc + digitVal c) 0

/-- Tests that `s` is a nonempty string of ASCII digits. -/
def allDigits (s : Str) : Bool := s ≠ [] && s.all isDigitChar

/-- JavaScript `s.split(sep)` for a one-character separator: splits at every
occurrence of the separator, keeping empty pieces.  The result is always
nonempty; this is exactly `List.splitOn`. -/
def splitOnChar (c : Char) (s : Str) : List Str := s.splitOn c

/-- JavaScript `Number(s)` on the fragment reachable from cron fields:
the empty string coerces to `0`, a digit string to its value, and anything
else (a piece still containing `,` or `-`, as produced by the evaluator's
mis-ordered split) to `NaN`, modelled as `none`. -/
def jsNumberD (s : Str) : Option Nat :=
  if s = [] then some 0
  else if s.all isDigitChar then some (digitsToNat s)
  else none

/-- JavaScript `parseInt(s, 10)` on the same fragment: parses the maximal
leading run of digits, `NaN` (modelled `none`) if there is none. -/
def jsParseIntD (s : Str) : Option Nat :=
  let ds := s.takeWhile isDigitChar
  if ds = [] then none else some (digitsToNat ds)

/-- Character membership, the source's single-character `includes`. -/
def containsChar (c : Char) (s : Str) : Bool := s.any (· == c)

/-- Embeds `matchesCronPart` of `src/scheduler/index.ts`: branch order is
`*`, then `*/n`, then "contains `-`" (range), then "contains `,`" (list),
then exact.  NaN (`none`) comparisons and `x % 0`/`x % NaN` are false, as
in JS. -/
def matchesCronPart (cronPart : Str) (value : Nat) : Bool :=
  if cronPart = ['*'] then true
  else if cronPart.take 2 = ['*', '/'] then
    match jsParseIntD (cronPart.drop 2) with
    | none => false
    | some interval => if interval = 0 then false else value % interval == 0
  else if containsChar '-' cronPart then
    let parts := splitOnChar '-' cronPart
    match jsNumberD (parts.getD 0 []), jsNumberD (parts.getD 1 []) with
    | some start, some stop => start ≤ value && value ≤ stop
    | _, _ => false
  else if containsChar ',' cronPart then
    (splitOnChar ',' cronPart).any (fun p => jsNumberD p == some value)
  else jsParseIntD cronPart == some value

/-- One field of the validator regex
`^(\*|(\*\/\d+)|(\d+(-\d+)?(,\d+(-\d+)?)*))$` of `isValidCron`:
an item of the third alternative is `\d+` or `\d+-\d+`. -/
def validCronItem (s : Str) : Bool :=
  match splitOnChar '-' s with
  | [a] => allDigits a
  | [a, b] => allDigits a && allDigits b
  | _ => false

/-- The full per-field regex of `isValidCron` (same pattern for all five
fields). -/
def validCronPart (s : Str) : Bool :=
  s = ['*'] || (s.take 2 = ['*', '/'] && allDigits (s.drop 2)) ||
    (splitOnChar ',' s).all validCronItem

/-- The `trim().split(/\s+/)` of a string, as the list of maximal non-whitespace
runs (for a trimmed string this is exactly the JS split; for the empty or
all-whitespace string JS yields `[""]` and this yields `[]`, and both fail
the five-field test identically). -/
def wsFields (s : Str) : List Str :=
  (splitOnChar ' ' (s.map (fun c => if isWsChar c then ' ' else c))).filter (· ≠ [])

/-- Embeds `isValidCron` of `src/scheduler/timeParser.ts`: five
whitespace-separated fields, each matching the per-field regex. -/
def isValidCron (cron : Str) : Bool :=
  let parts := wsFields cron
  parts.length == 5 && parts.all validCronPart

/-! ## Spec-side grammar of recurrence fields (§4.2 of the spec)

These definitions follow the spec's words, for comparison with the
source-embedded `matchesCronPart`/`isValidCron`: a field is a wildcard, a
stepped wildcard over a digit string, or a nonempty comma list of items,
each item an exact integer or an inclusive range. -/

/-- A list item of the §4.2 grammar: an exact integer or a range, kept as
digit strings so that rendering is exact. -/
inductive CronItem where
  | exact (ds : Str)
  | range (lo hi : Str)

/-- Well-formedness of an item: its parts are nonempty digit strings. -/
def CronItem.wf : CronItem → Prop
  | .exact ds => allDigits ds = true
  | .range lo hi => allDigits lo = true ∧ allDigits hi = true

/-- Text of an item. -/
def CronItem.render : CronItem → Str
  | .exact ds => ds
  | .range lo hi => lo ++ '-' :: hi

/-- Spec semantics of an item (§4.3): exact matches on equality, a range
inclusively. -/
def CronItem.specMatches : CronItem → Nat → Prop
  | .exact ds, v => v = digitsToNat ds
  | .range lo hi, v => digitsToNat lo ≤ v ∧ v ≤ digitsToNat hi

/-- A field of the §4.2 grammar. -/
inductive CronField where
  | star
  | step (ds : Str)
  | items (l : List CronItem)

/-- Well-formedness of a field. -/
def CronField.wf : CronField → Prop
  | .star => True
  | .step ds => allDigits ds = true
  | .items l => l ≠ [] ∧ ∀ it ∈ l, it.wf

/-- Text of a field. -/
def CronField.render : CronField → Str
  | .star => ['*']
  | .step ds => '*' :: '/' :: ds
  | .items l => List.intercalate [','] (l.map CronItem.render)

/-- Spec semantics of a field, exactly as claim C1 words it: wildcard always
matches; `*/n` matches `v` iff `v mod n == 0`; a comma list matches iff one
of its items does. -/
def CronField.specMatches : CronField → Nat → Prop
  | .star, _ => True
  | .step ds, v => v % digitsToNat ds = 0
  | .items l, v => ∃ it ∈ l, it.specMatches v

/-- The fields the evaluator handles as the claim describes: everything
except a multi-item comma list containing a range (which the evaluator's
`-`-before-`,` branch order sends to the range branch) and a zero step
divisor (`x % 0` is `NaN` in JS). -/
def CronField.good : CronField → Prop
  | .star => True
  | .step ds => digitsToNat ds ≠ 0
  | .items [_] => True
  | .items l => ∀ it ∈ l, ∃ ds, it = .exact ds

/-- Claim C9's spec-side validity: five whitespace-separated fields of the
§4.2 grammar. -/
def specValidCron (s : Str) : Prop :=
  ∃ fs : List CronField, fs.length = 5 ∧ (∀ f ∈ fs, f.wf) ∧
    wsFields s = fs.map CronField.render

/-! ## Data model: `ScheduledEvent` (`src/scheduler/store.ts`) -/

inductive ScheduleType where
  | once
  | cron
deriving DecidableEq, Repr

inductive ScheduleStatus where
  | active
  | completed
  | cancelled
deriving DecidableEq, Repr

structure ScheduledEvent where
  id : String
  userId : String
  guildId : Option String
  channelId : String
  type : ScheduleType
  schedule : String
  action : String
  mention : Option String := none
  status : ScheduleStatus
  createdAt : String
  lastTriggeredAt : Option String := none
  triggerCount : Nat
  completedAt : Option String := none
  description : String
deriving DecidableEq, Repr

/-! ## Time model (`src/scheduler/timeParser.ts`)

Instants are epoch milliseconds.  A process clock carries the (constant)
UTC offsets of the process's local timezone and of Europe/Paris, in
milliseconds; `date-fns-tz`'s `toZonedTime(d, tz)` returns a `Date` whose
epoch is shifted by the difference of the two offsets so that its local
getters show `tz` wall time. -/

structure Clock where
  realNow : Int
  localOffsetMs : Int
  parisOffsetMs : Int

/-- Epoch shift performed by `toZonedTime(_, PARIS_TZ)` under constant
offsets. -/
def toZonedTimeParis (c : Clock) (t : Int) : Int :=
  t + c.parisOffsetMs - c.localOffsetMs

/-- Embeds `nowInParis()`. -/
def nowInParis (c : Clock) : Int := toZonedTimeParis c c.realNow

/-- The `date-fns` `startOfMinute`: truncate to the enclosing minute (civil
offsets are whole minutes, so the truncation acts on the epoch). -/
def startOfMinute (t : Int) : Int := t - t % 60000

/-- Embeds `shouldFireNow`: the scheduled instant falls in the current
minute. Both arguments are epoch values of the respective `Date`s. -/
def shouldFireNow (now scheduled : Int) : Bool :=
  startOfMinute now == startOfMinute scheduled

/-- Embeds `isInPast`: `isBefore(scheduled, now)`. -/
def isInPast (now scheduled : Int) : Bool := scheduled < now

/-- The 14 unit spellings of the relative-time regex alternation
`minutes?|mins?|hours?|hrs?|days?|weeks?|wks?` (already lowercased). -/
def relUnitSpellings : List Str :=
  ["minutes".data, "minute".data, "mins".data, "min".data,
   "hours".data, "hour".data, "hrs".data, "hr".data,
   "days".data, "day".data,
   "weeks".data, "week".data, "wks".data, "wk".data]

/-- Lowercase a string, as `toLowerCase()` / the regex `i` flag. -/
def lowerStr (s : Str) : Str := s.map Char.toLower

/-- The match of `/^in\s+(\d+)\s*(minutes?|mins?|hours?|hrs?|days?|weeks?|wks?)$/i`
against the input: the captured digit string and the lowercased unit. -/
def relTimeMatch (s : Str) : Option (Str × Str) :=
  match s with
  | iCh :: nCh :: w :: rest2 =>
    if iCh.toLower = 'i' ∧ nCh.toLower = 'n' ∧ isWsChar w = true then
      let rest3 := rest2.dropWhile isWsChar
      let ds := rest3.takeWhile isDigitChar
      let unit := lowerStr ((rest3.drop ds.length).dropWhile isWsChar)
      if ds ≠ [] ∧ unit ∈ relUnitSpellings then some (ds, unit) else none
    else none
  | _ => none

/-- Embeds `parseRelativeTime`: on a match, add the amount of the unit to
`nowInParis()` (`addMinutes`/`addHours`/`addDays`/`addWeeks`; under the
constant-offset model a civil day is 86400000 ms and a week 7 of those).
The returned value is the epoch of the produced `Date`, which is what
`parseTimeToISO` serializes. -/
def parseRelativeTime (c : Clock) (input : Str) : Option Int :=
  let now := nowInParis c
  match relTimeMatch input with
  | none => none
  | some (ds, unit) =>
    let amount : Int := (digitsToNat ds : Int)
    if unit.take 3 = "min".data then some (now + amount * 60000)
    else if unit.take 4 = "hour".data ∨ unit.take 2 = "hr".data then
      some (now + amount * 3600000)
    else if unit.take 3 = "day".data then some (now + amount * 86400000)
    else if unit.take 4 = "week".data ∨ unit.take 2 = "wk".data then
      some (now + amount * 604800000)
    else none

/-- Spec-side recognition of a relative phrase, following the claim's
grammar `in N unit` (case-insensitive, unit among the 14 spellings):
the input decomposes as `in`, whitespace, digits, optional whitespace,
unit. -/
def RecognizedRelPhrase (input : Str) (ds : Str) (unit : Str) : Prop :=
  ∃ (iCh nCh : Char) (w1 w2 : Str) (u : Str),
    input = iCh :: nCh :: (w1 ++ (ds ++ (w2 ++ u))) ∧
    iCh.toLower = 'i' ∧ nCh.toLower = 'n' ∧
    w1 ≠ [] ∧ w1.all isWsChar = true ∧ w2.all isWsChar = true ∧
    allDigits ds = true ∧ lowerStr u = unit ∧ unit ∈ relUnitSpellings

/-- Duration of one unit spelling in the constant-offset model, in ms. -/
def relUnitMs (unit : Str) : Int :=
  if unit.take 3 = "min".data then 60000
  else if unit.take 4 = "hour".data ∨ unit.take 2 = "hr".data then 3600000
  else if unit.take 3 = "day".data then 86400000
  else 604800000

/-! ## Firing-loop selection (`src/scheduler/index.ts`) -/

/-- The tick instant: the epoch of the (Paris-shifted) `Date` obtained by
`nowInParis()` together with its civil getters (`getMinutes`, `getHours`,
`getDate`, `getMonth() + 1`, `getDay`), abstracted as given fields. -/
structure TickInstant where
  epoch : Int
  minute : Nat
  hour : Nat
  dayOfMonth : Nat
  month : Nat
  dayOfWeek : Nat

/-- Embeds `shouldEventFire`.  ISO-8601 `Date` parsing is abstracted as the
`parseISO` parameter (the epoch a stored schedule string denotes). -/
def shouldEventFire (parseISO : String → Int) (e : ScheduledEvent)
    (now : TickInstant) : Bool :=
  match e.type with
  | .once =>
    if shouldFireNow now.epoch (parseISO e.schedule) then true
    else if isInPast now.epoch (parseISO e.schedule) && e.triggerCount == 0 then true
    else false
  | .cron =>
    match splitOnChar ' ' e.schedule.data with
    | [cronMin, cronHour, cronDayOfMonth, cronMonth, cronDayOfWeek] =>
      matchesCronPart cronMin now.minute &&
      matchesCronPart cronHour now.hour &&
      matchesCronPart cronDayOfMonth now.dayOfMonth &&
      matchesCronPart cronMonth now.month &&
      matchesCronPart cronDayOfWeek now.dayOfWeek
    | _ => false

/-- Embeds `getActiveEvents`. -/
def getActiveEvents (store : List ScheduledEvent) : List ScheduledEvent :=
  store.filter (fun e => e.status == .active)

/-- The events one tick of `checkAndFireEvents` selects as due: the active
events for which `shouldEventFire` holds. -/
def dueEvents (parseISO : String → Int) (store : List ScheduledEvent)
    (now : TickInstant) : List ScheduledEvent :=
  (getActiveEvents store).filter (fun e => shouldEventFire parseISO e now)

/-! ## Event ledger operations (`src/scheduler/store.ts`)

Every mutating operation of the source loads the whole collection, mutates
it, and writes it back; here each is a function on the event list.  `now`
(the `new Date().toISOString()` the source takes) and the generated id are
passed as arguments. -/

/-- The creation payload (`Omit<ScheduledEvent, 'id'|'status'|'createdAt'|'triggerCount'>`). -/
structure EventDraft where
  userId : String
  guildId : Option String
  channelId : String
  type : ScheduleType
  schedule : String
  action : String
  mention : Option String
  description : String
deriving DecidableEq, Repr

/-- The record `createScheduledEvent` builds from a draft. -/
def mkScheduledEvent (d : EventDraft) (newId now : String) : ScheduledEvent :=
  { id := newId, userId := d.userId, guildId := d.guildId,
    channelId := d.channelId, type := d.type, schedule := d.schedule,
    action := d.action, mention := d.mention, status := .active,
    createdAt := now, lastTriggeredAt := none, triggerCount := 0,
    completedAt := none, description := d.description }

/-- Embeds `createScheduledEvent`: push the new record, return it. -/
def createScheduledEvent (store : List ScheduledEvent) (d : EventDraft)
    (newId now : String) : ScheduledEvent × List ScheduledEvent :=
  let e := mkScheduledEvent d newId now
  (e, store ++ [e])

/-- In-place mutation of the first element a predicate finds, as the
source's `find` + field assignment + whole-store save. -/
def updateFirst (p : α → Bool) (f : α → α) : List α → List α
  | [] => []
  | x :: xs => if p x then f x :: xs else x :: updateFirst p f xs

/-- The field mutation `markEventTriggered` applies to the found event. -/
def fireUpdate (now : String) (e : ScheduledEvent) : ScheduledEvent :=
  let e1 := { e with lastTriggeredAt := some now,
                     triggerCount := e.triggerCount + 1 }
  if e1.type = .once then
    { e1 with status := .completed, completedAt := some now }
  else e1

/-- Embeds `markEventTriggered`: no-op when the id is absent. -/
def markEventTriggered (store : List ScheduledEvent) (eventId now : String) :
    List ScheduledEvent :=
  updateFirst (fun e => e.id == eventId) (fireUpdate now) store

/-- The field mutation `cancelEvent`/`cancelUserEvents` apply. -/
def cancelUpdate (now : String) (e : ScheduledEvent) : ScheduledEvent :=
  { e with status := .cancelled, completedAt := some now }

/-- Embeds `cancelEvent`: returns whether a transition was applied together
with the resulting store. -/
def cancelEvent (store : List ScheduledEvent) (eventId now : String) :
    Bool × List ScheduledEvent :=
  match store.find? (fun e => e.id == eventId) with
  | some e =>
    if e.status = .active then
      (true, updateFirst (fun x => x.id == eventId) (cancelUpdate now) store)
    else (false, store)
  | none => (false, store)

/-- Embeds `cancelUserEvents`: cancel every active event of the user,
return the count of transitions. -/
def cancelUserEvents (store : List ScheduledEvent) (userId now : String) :
    Nat × List ScheduledEvent :=
  ((store.filter (fun e => e.userId == userId && e.status == .active)).length,
   store.map (fun e =>
     if e.userId == userId && e.status == .active then cancelUpdate now e else e))

/-- The ledger operations claims C6/C7 quantify over: creation,
cancellation (single and bulk), and the firing loop's `markEventTriggered`. -/
inductive LedgerOp where
  | create (d : EventDraft) (newId now : String)
  | cancel (eventId now : String)
  | cancelAll (userId now : String)
  | fire (eventId now : String)

def applyOp : LedgerOp → List ScheduledEvent → List ScheduledEvent
  | .create d newId now, s => (createScheduledEvent s d newId now).2
  | .cancel eventId now, s => (cancelEvent s eventId now).2
  | .cancelAll userId now, s => (cancelUserEvents s userId now).2
  | .fire eventId now, s => markEventTriggered s eventId now

/-- Guard of an operation: `markEventTriggered` is only ever invoked by the
firing loop on an event it loaded through `getActiveEvents`, i.e. one whose
status is `active`; the other operations are unguarded. -/
def opOk : LedgerOp → List ScheduledEvent → Prop
  | .fire eventId _, s =>
       ∃ e, s.find? (fun x => x.id == eventId) = some e ∧ e.status = .active
  | _, _ => True

/-- One ledger transition. -/
def LedgerStep (s s' : List ScheduledEvent) : Prop :=
  ∃ op, opOk op s ∧ s' = applyOp op s

/-- Ledger states reachable from the empty ledger. -/
def LedgerReachable (s : List ScheduledEvent) : Prop :=
  Relation.ReflTransGen LedgerStep [] s

/-- One raw ledger transition, exactly as the store module exposes the
operations: `markEventTriggered` carries no status guard, so a fire
operation may target any id, including a completed or cancelled record. -/
def RawLedgerStep (s s' : List ScheduledEvent) : Prop :=
  ∃ op, s' = applyOp op s

/-! ## Tool catalog and agent options (`src/tools/index.ts`,
`src/agent/index.ts`, `src/scheduler/index.ts`) -/

structure ToolContext where
  userId : String
  guildId : Option String
  channelId : String
  sandboxPath : String

structure CreateToolsOptions where
  excludeScheduler : Bool := false

structure RunAgentOptions where
  excludeScheduler : Bool := false
  skipHistory : Bool := false
  customSystemPrompt : Option String := none

/-- Embeds `createAllTools`, with tools identified by their registered
names: the scheduler tool is appended only when not excluded. -/
def createAllTools (_context : ToolContext) (options : CreateToolsOptions) :
    List String :=
  let tools := ["manage_list", "web_search", "manage_conversation"]
  if !options.excludeScheduler then tools ++ ["manage_schedule"] else tools

/-- The options `fireEvent` passes to `runAgent` for a fired scheduled
task. -/
def fireEventAgentOptions : RunAgentOptions :=
  { excludeScheduler := true, skipHistory := true }

/-- The options a live message uses: `handleMessage` calls
`runAgent(context, content)` with the defaults. -/
def handleMessageAgentOptions : RunAgentOptions := {}

/-- How `executeAgent` builds its `CreateToolsOptions` from the run options. -/
def toolsOptionsOf (options : RunAgentOptions) : CreateToolsOptions :=
  { excludeScheduler := options.excludeScheduler }

/-- The tool catalog an orchestration-loop invocation runs with. -/
def agentToolCatalog (context : ToolContext) (options : RunAgentOptions) :
    List String :=
  createAllTools context (toolsOptionsOf options)

/-! ## Conversation-history effect of `executeAgent` (`src/agent/index.ts`,
`src/agent/memory.ts`)

The per-channel history file is modelled as the list of stored messages for
the channel the call addresses. -/

inductive Role where
  | human
  | ai
deriving DecidableEq, Repr

structure StoredMessage where
  role : Role
  content : String
  timestamp : String
deriving DecidableEq, Repr

/-- Last `n` elements of a list (`slice(-n)`). -/
def takeLast (n : Nat) (l : List α) : List α := l.drop (l.length - n)

/-- The trim in `saveHistory`: keep only the last `maxMessages` messages when
over the bound. -/
def saveHistoryTrim (maxMessages : Nat) (msgs : List StoredMessage) :
    List StoredMessage :=
  if msgs.length > maxMessages then takeLast maxMessages msgs else msgs

/-- Embeds `addToHistory`: load, push one message, save (with trim). -/
def addToHistory (maxMessages : Nat) (hist : List StoredMessage) (role : Role)
    (content ts : String) : List StoredMessage :=
  saveHistoryTrim maxMessages (hist ++ [⟨role, content, ts⟩])

/-- Embeds `getHistoryAsMessages` with the `limit` argument
(`limit ? messages.slice(-limit) : messages`; `0` is falsy in JS). -/
def getHistoryMessages (limit : Nat) (hist : List StoredMessage) :
    List StoredMessage :=
  if limit = 0 then hist else takeLast limit hist

/-- What `executeAgent` reads from and writes to the channel's history
store: the prior turns loaded into the prompt, and the store contents after
the call.  The model's final answer is the opaque `output`. -/
structure AgentHistoryResult where
  loaded : List StoredMessage
  store : List StoredMessage

/-- History behaviour of `executeAgent` (lines 91–99 and 186–189 of
`src/agent/index.ts`): the load is guarded by `skipHistory`, the two
`addToHistory` calls are unconditional. -/
def executeAgentHistory (maxMessages : Nat) (options : RunAgentOptions)
    (hist : List StoredMessage) (input output ts1 ts2 : String) :
    AgentHistoryResult :=
  let loaded := if options.skipHistory then [] else getHistoryMessages maxMessages hist
  let afterInput := addToHistory maxMessages hist .human input ts1
  let afterOutput := addToHistory maxMessages afterInput .ai output ts2
  ⟨loaded, afterOutput⟩

/-! ## Outgoing-message chunking in `fireEvent` (`src/scheduler/index.ts`) -/

/-- The chunks `message.match(/.{1,1990}/gs)` produces: greedy consecutive
runs of at most 1990 characters (`|| []` turns the empty string's `null`
into no chunks). -/
def chunkMessage (s : Str) : List Str :=
  if h : s = [] then []
  else s.take 1990 :: chunkMessage (s.drop 1990)
termination_by s.length
decreasing_by
  simp only [List.length_drop]
  cases s with
  | nil => exact absurd rfl h
  | cons x xs => simp only [List.length_cons]; omega

/-- The messages `fireEvent` sends for an outgoing message: chunked only
above Discord's 2000-character limit. -/
def fireEventSendPlan (message : Str) : List Str :=
  if message.length > 2000 then chunkMessage message else [message]

/-- The outgoing message `fireEvent` builds: the agent response, prefixed
with the event's mention if set. -/
def buildOutgoingMessage (mention : Option Str) (response : Str) : Str :=
  match mention with
  | some m => m ++ ' ' :: response
  | none => response

/-! ## Concrete fixtures used by the witnesses -/

/-- A `once` event scheduled at epoch 0 that has never fired (claim C2's
witness). -/
def onceEventOverdue : ScheduledEvent :=
  { id := "ev3", userId := "u1", guildId := none, channelId := "ch1",
    type := .once, schedule := "1970-01-01T00:00:00.000Z", action := "act",
    mention := none, status := .active, createdAt := "t0",
    triggerCount := 0, description := "overdue once" }

/-- A tick two minutes after epoch 0 (claim C2's witness). -/
def tickTwoMinutes : TickInstant :=
  { epoch := 120000, minute := 2, hour := 0, dayOfMonth := 1, month := 1,
    dayOfWeek := 4 }

/-- A draft used by the ledger witnesses (claims C6–C8). -/
def sampleDraft : EventDraft :=
  { userId := "u1", guildId := none, channelId := "ch1", type := .once,
    schedule := "1970-01-01T00:10:00.000Z", action := "act",
    mention := none, description := "sample" }

end AndreBot

namespace AndreBot

/-! ## Helper lemmas: characters, splitting, intercalation -/

-- sanity examples for the embedding (claim C9's and C1's concrete inputs)
example : isValidCron ("30 9 * * 1-5".data) = true := by decide
example : isValidCron ("*/15 * * * *".data) = true := by decide
example : isValidCron ("0,30 * * * *".data) = true := by decide
example : isValidCron ("30 9 * *".data) = false := by decide
example : isValidCron ("99 * * * *".data) = true := by decide
example : matchesCronPart ("1-5".data) 3 = true := by decide
example : matchesCronPart ("1-5,8".data) 8 = false := by decide
example : matchesCronPart ("1-5,8".data) 3 = false := by decide
example : matchesCronPart ("0,6".data) 6 = true := by decide
example : matchesCronPart ("*/15".data) 30 = true := by decide

theorem digit_ne_of {c : Char} (hc : isDigitChar c = false) {x : Char}
    (hx : isDigitChar x = true) : x ≠ c := by
  intro he
  subst he
  rw [hx] at hc
  cases hc

theorem intercalate_nil (s : List α) :
    List.intercalate s ([] : List (List α)) = [] := by
  simp [List.intercalate]

theorem intercalate_singleton (s a : List α) :
    List.intercalate s [a] = a := by
  simp [List.intercalate]

theorem intercalate_cons_cons (s a b : List α) (t : List (List α)) :
    List.intercalate s (a :: b :: t) = a ++ s ++ List.intercalate s (b :: t) := by
  simp [List.intercalate, List.intersperse]

theorem splitOnChar_eq_splitOnP (c : Char) (s : Str) :
    splitOnChar c s = s.splitOnP (· == c) := by
  simp [splitOnChar, List.splitOn]

theorem splitOnChar_no_sep {c : Char} {s : Str} (h : ∀ x ∈ s, x ≠ c) :
    splitOnChar c s = [s] := by
  rw [splitOnChar_eq_splitOnP]
  exact List.splitOnP_eq_single _ _ (by simpa using h)

theorem splitOnChar_first {c : Char} {p : Str} (h : ∀ x ∈ p, x ≠ c) (rest : Str) :
    splitOnChar c (p ++ c :: rest) = p :: splitOnChar c rest := by
  rw [splitOnChar_eq_splitOnP, splitOnChar_eq_splitOnP]
  exact List.splitOnP_first _ _ (by simpa using h) c (by simp) rest

theorem intercalate_splitOnChar (c : Char) (s : Str) :
    List.intercalate [c] (splitOnChar c s) = s := by
  simpa [splitOnChar] using List.intercalate_splitOn s c

theorem splitOnChar_intercalate (c : Char) {ps : List Str} (hne : ps ≠ [])
    (h : ∀ p ∈ ps, c ∉ p) :
    splitOnChar c (List.intercalate [c] ps) = ps := by
  simpa [splitOnChar] using List.splitOn_intercalate ps c h hne

/-! ## Claim C9: the recurrence validator realizes the §4.2 grammar -/

theorem allDigits_iff {s : Str} :
    allDigits s = true ↔ s ≠ [] ∧ ∀ x ∈ s, isDigitChar x = true := by
  simp [allDigits, List.all_eq_true]

theorem digits_no_comma {s : Str} (h : allDigits s = true) : ',' ∉ s := by
  intro hmem
  exact digit_ne_of (c := ',') (by decide) ((allDigits_iff.mp h).2 _ hmem) rfl

theorem digits_no_dash {s : Str} (h : allDigits s = true) : '-' ∉ s := by
  intro hmem
  exact digit_ne_of (c := '-') (by decide) ((allDigits_iff.mp h).2 _ hmem) rfl

theorem validCronItem_render {it : CronItem} (h : it.wf) :
    validCronItem it.render = true := by
  cases it with
  | exact ds =>
    have hsplit : splitOnChar '-' ds = [ds] :=
      splitOnChar_no_sep (fun x hx => digit_ne_of (by decide)
        ((allDigits_iff.mp h).2 x hx))
    simp [validCronItem, CronItem.render, hsplit]
    exact h
  | range lo hi =>
    obtain ⟨hlo, hhi⟩ := h
    have hsplit : splitOnChar '-' (lo ++ '-' :: hi) = [lo, hi] := by
      rw [splitOnChar_first (fun x hx => digit_ne_of (by decide)
        ((allDigits_iff.mp hlo).2 x hx))]
      rw [splitOnChar_no_sep (fun x hx => digit_ne_of (by decide)
        ((allDigits_iff.mp hhi).2 x hx))]
    simp [validCronItem, CronItem.render, hsplit]
    exact ⟨hlo, hhi⟩

theorem comma_not_mem_item_render {it : CronItem} (h : it.wf) :
    ',' ∉ it.render := by
  cases it with
  | exact ds => exact digits_no_comma h
  | range lo hi =>
    obtain ⟨hlo, hhi⟩ := h
    simp only [CronItem.render, List.mem_append, List.mem_cons]
    rintro (hc | hc | hc)
    · exact digits_no_comma hlo hc
    · cases hc
    · exact digits_no_comma hhi hc

theorem item_of_validCronItem {q : Str} (h : validCronItem q = true) :
    ∃ it : CronItem, it.wf ∧ it.render = q := by
  rcases hs : splitOnChar '-' q with _ | ⟨a, _ | ⟨b, rest⟩⟩
  · rw [validCronItem, hs] at h; cases h
  · rw [validCronItem, hs] at h
    refine ⟨.exact a, h, ?_⟩
    have := intercalate_splitOnChar '-' q
    rw [hs, intercalate_singleton] at this
    exact this
  · cases rest with
    | nil =>
      rw [validCronItem, hs] at h
      rw [Bool.and_eq_true] at h
      refine ⟨.range a b, ⟨h.1, h.2⟩, ?_⟩
      have := intercalate_splitOnChar '-' q
      rw [hs, intercalate_cons_cons, intercalate_singleton] at this
      simpa [CronItem.render] using this
    | cons c t => rw [validCronItem, hs] at h; cases h

theorem items_of_pieces : ∀ ps : List Str, (∀ q ∈ ps, validCronItem q = true) →
    ∃ l : List CronItem, (∀ it ∈ l, it.wf) ∧ l.map CronItem.render = ps := by
  intro ps
  induction ps with
  | nil => exact fun _ => ⟨[], by simp, by simp⟩
  | cons q ps ih =>
    intro h
    obtain ⟨l, hwf, hmap⟩ := ih (fun x hx => h x (List.mem_cons_of_mem _ hx))
    obtain ⟨it, hitwf, hitr⟩ := item_of_validCronItem (h q (List.mem_cons_self _ _))
    refine ⟨it :: l, ?_, by simp [hitr, hmap]⟩
    intro x hx
    rcases List.mem_cons.mp hx with rfl | hx
    · exact hitwf
    · exact hwf x hx

theorem validCronPart_iff (p : Str) :
    validCronPart p = true ↔ ∃ f : CronField, f.wf ∧ f.render = p := by
  constructor
  · intro h
    rw [validCronPart] at h
    rcases Bool.or_eq_true .. |>.mp h with h | h
    · rcases Bool.or_eq_true .. |>.mp h with h | h
      · exact ⟨.star, trivial, by simp_all [CronField.render]⟩
      · rw [Bool.and_eq_true] at h
        obtain ⟨h1, h2⟩ := h
        refine ⟨.step (p.drop 2), h2, ?_⟩
        have := List.take_append_drop 2 p
        rw [decide_eq_true_iff] at h1
        rw [h1] at this
        simpa [CronField.render] using this
    · rw [List.all_eq_true] at h
      obtain ⟨l, hwf, hmap⟩ := items_of_pieces _ h
      refine ⟨.items l, ⟨?_, hwf⟩, ?_⟩
      · intro hl
        subst hl
        simp only [List.map_nil] at hmap
        exact List.splitOnP_ne_nil _ _ ((splitOnChar_eq_splitOnP ',' p) ▸ hmap.symm)
      · rw [CronField.render, hmap, intercalate_splitOnChar]
  · rintro ⟨f, hwf, rfl⟩
    cases f with
    | star => decide
    | step ds =>
      rw [validCronPart]
      have : ((CronField.step ds).render.take 2 = ['*', '/'] ∧
          allDigits ((CronField.step ds).render.drop 2) = true) := by
        simp [CronField.render]
        exact hwf
      simp [this.1, this.2]
    | items l =>
      obtain ⟨hne, hitems⟩ := hwf
      rw [validCronPart]
      have hsplit : splitOnChar ',' (CronField.items l).render = l.map CronItem.render := by
        rw [CronField.render]
        exact splitOnChar_intercalate ','
          (by simpa using hne)
          (by
            intro q hq
            rw [List.mem_map] at hq
            obtain ⟨it, hit, rfl⟩ := hq
            exact comma_not_mem_item_render (hitems it hit))
      have hall : ((splitOnChar ',' (CronField.items l).render).all validCronItem) = true := by
        rw [hsplit, List.all_eq_true]
        intro q hq
        rw [List.mem_map] at hq
        obtain ⟨it, hit, rfl⟩ := hq
        exact validCronItem_render (hitems it hit)
      rw [hall, Bool.or_true]

theorem fields_of_parts : ∀ ps : List Str, (∀ q ∈ ps, validCronPart q = true) →
    ∃ fs : List CronField, (∀ f ∈ fs, f.wf) ∧ fs.map CronField.render = ps := by
  intro ps
  induction ps with
  | nil => exact fun _ => ⟨[], by simp, by simp⟩
  | cons q ps ih =>
    intro h
    obtain ⟨fs, hwf, hmap⟩ := ih (fun x hx => h x (List.mem_cons_of_mem _ hx))
    obtain ⟨f, hfwf, hfr⟩ := (validCronPart_iff q).mp (h q (List.mem_cons_self _ _))
    refine ⟨f :: fs, ?_, by simp [hfr, hmap]⟩
    intro x hx
    rcases List.mem_cons.mp hx with rfl | hx
    · exact hfwf
    · exact hwf x hx

/-- Claim C9 (confirmed): the recurrence validator accepts exactly the
strings with five whitespace-separated fields of the §4.2 grammar
(`*`, `*/n`, or a comma list of integers / integer ranges); it is purely
syntactic — out-of-range values such as a minute field of 99 are accepted —
and it behaves as stated on the four concrete scenario inputs. -/
theorem isValidCron_realizes_grammar :
    (∀ s : Str, isValidCron s = true ↔ specValidCron s) ∧
    isValidCron ("30 9 * * 1-5".data) = true ∧
    isValidCron ("*/15 * * * *".data) = true ∧
    isValidCron ("0,30 * * * *".data) = true ∧
    isValidCron ("30 9 * *".data) = false ∧
    isValidCron ("99 * * * *".data) = true := by
  refine ⟨?_, by decide, by decide, by decide, by decide, by decide⟩
  intro s
  rw [isValidCron, specValidCron]
  simp only [Bool.and_eq_true, beq_iff_eq, List.all_eq_true]
  constructor
  · rintro ⟨hlen, hall⟩
    obtain ⟨fs, hwf, hmap⟩ := fields_of_parts _ hall
    exact ⟨fs, by simpa [← hmap] using hlen, hwf, hmap.symm⟩
  · rintro ⟨fs, hlen, hwf, heq⟩
    refine ⟨by simp [heq, hlen], ?_⟩
    intro q hq
    rw [heq, List.mem_map] at hq
    obtain ⟨f, hf, rfl⟩ := hq
    exact (validCronPart_iff _).mpr ⟨f, hwf f hf, rfl⟩

/-! ## Claim C1: the match evaluator versus the spec's field semantics -/

theorem jsParseIntD_digits {ds : Str} (h : allDigits ds = true) :
    jsParseIntD ds = some (digitsToNat ds) := by
  obtain ⟨hne, hall⟩ := allDigits_iff.mp h
  rw [jsParseIntD]
  have htake : ds.takeWhile isDigitChar = ds :=
    List.takeWhile_eq_self_iff.mpr (by simpa using hall)
  simp [htake, hne]

theorem jsNumberD_digits {ds : Str} (h : allDigits ds = true) :
    jsNumberD ds = some (digitsToNat ds) := by
  obtain ⟨hne, hall⟩ := allDigits_iff.mp h
  rw [jsNumberD, if_neg hne, if_pos (by simpa [List.all_eq_true] using hall)]

theorem containsChar_eq_true_iff {c : Char} {s : Str} :
    containsChar c s = true ↔ c ∈ s := by
  simp only [containsChar, List.any_eq_true, beq_iff_eq]
  constructor
  · rintro ⟨x, hx, rfl⟩; exact hx
  · intro h; exact ⟨c, h, rfl⟩

theorem containsChar_eq_false_iff {c : Char} {s : Str} :
    containsChar c s = false ↔ c ∉ s := by
  rw [← Bool.not_eq_true, not_iff_not, containsChar_eq_true_iff]

theorem mem_intercalate_single {x c : α} :
    ∀ {ps : List (List α)}, x ∈ List.intercalate [c] ps →
      (∃ p ∈ ps, x ∈ p) ∨ x = c := by
  intro ps
  induction ps with
  | nil => intro h; rw [intercalate_nil] at h; cases h
  | cons p ps ih =>
    intro h
    cases ps with
    | nil =>
      rw [intercalate_singleton] at h
      exact Or.inl ⟨p, List.mem_cons_self _ _, h⟩
    | cons q t =>
      rw [intercalate_cons_cons] at h
      rcases List.mem_append.mp h with h1 | h2
      · rcases List.mem_append.mp h1 with h1 | h1
        · exact Or.inl ⟨p, List.mem_cons_self _ _, h1⟩
        · exact Or.inr (List.mem_singleton.mp h1)
      · rcases ih h2 with ⟨r, hr, hxr⟩ | hx
        · exact Or.inl ⟨r, List.mem_cons_of_mem _ hr, hxr⟩
        · exact Or.inr hx

theorem mem_item_render {it : CronItem} (hwf : it.wf) {x : Char}
    (hx : x ∈ it.render) : isDigitChar x = true ∨ x = '-' := by
  cases it with
  | exact ds => exact Or.inl ((allDigits_iff.mp hwf).2 x hx)
  | range lo hi =>
    obtain ⟨hlo, hhi⟩ := hwf
    rw [CronItem.render] at hx
    rcases List.mem_append.mp hx with h | h
    · exact Or.inl ((allDigits_iff.mp hlo).2 x h)
    · rcases List.mem_cons.mp h with rfl | h
      · exact Or.inr rfl
      · exact Or.inl ((allDigits_iff.mp hhi).2 x h)

theorem mem_field_render {f : CronField} (hwf : f.wf) {x : Char}
    (hx : x ∈ f.render) :
    isDigitChar x = true ∨ x = '*' ∨ x = '/' ∨ x = '-' ∨ x = ',' := by
  cases f with
  | star =>
    rw [CronField.render] at hx
    exact Or.inr (Or.inl (List.mem_singleton.mp hx))
  | step ds =>
    rw [CronField.render] at hx
    rcases List.mem_cons.mp hx with rfl | hx
    · exact Or.inr (Or.inl rfl)
    · rcases List.mem_cons.mp hx with rfl | hx
      · exact Or.inr (Or.inr (Or.inl rfl))
      · exact Or.inl ((allDigits_iff.mp hwf).2 x hx)
  | items l =>
    obtain ⟨-, hitems⟩ := hwf
    rw [CronField.render] at hx
    rcases mem_intercalate_single hx with ⟨p, hp, hxp⟩ | rfl
    · rw [List.mem_map] at hp
      obtain ⟨it, hit, rfl⟩ := hp
      rcases mem_item_render (hitems it hit) hxp with h | rfl
      · exact Or.inl h
      · exact Or.inr (Or.inr (Or.inr (Or.inl rfl)))
    · exact Or.inr (Or.inr (Or.inr (Or.inr rfl)))

theorem space_not_mem_render {f : CronField} (hwf : f.wf) : ' ' ∉ f.render := by
  intro hx
  rcases mem_field_render hwf hx with h | h | h | h | h
  · exact absurd h (by decide)
  all_goals cases h

theorem map_render_exact : ∀ dss : List Str,
    (dss.map CronItem.exact).map CronItem.render = dss := by
  intro dss
  induction dss with
  | nil => rfl
  | cons d t ih => simp [CronItem.render, ih]

theorem all_exact_shape : ∀ {l : List CronItem},
    (∀ it ∈ l, ∃ ds, it = .exact ds) → ∃ dss : List Str, l = dss.map CronItem.exact := by
  intro l
  induction l with
  | nil => exact fun _ => ⟨[], rfl⟩
  | cons it l ih =>
    intro h
    obtain ⟨dss, rfl⟩ := ih (fun x hx => h x (List.mem_cons_of_mem _ hx))
    obtain ⟨ds, rfl⟩ := h it (List.mem_cons_self _ _)
    exact ⟨ds :: dss, rfl⟩

theorem digits_ne_star {ds : Str} (h : allDigits ds = true) : ds ≠ ['*'] := by
  intro he
  subst he
  exact absurd ((allDigits_iff.mp h).2 '*' (List.mem_singleton_self _)) (by decide)

theorem digits_take_ne_step {ds : Str} (h : allDigits ds = true) :
    ds.take 2 ≠ ['*', '/'] := by
  intro he
  have : '*' ∈ ds := List.take_subset 2 ds (he ▸ List.mem_cons_self _ _)
  exact absurd ((allDigits_iff.mp h).2 '*' this) (by decide)

/-- Per-field behaviour of `matchesCronPart` on the fields the amended
claim covers (see `CronField.good`): the evaluator realizes the spec's
field semantics. -/
theorem matchesCronPart_eq_spec {f : CronField} (hwf : f.wf) (hgood : f.good)
    (v : Nat) : matchesCronPart f.render v = true ↔ f.specMatches v := by
  cases f with
  | star => simp [matchesCronPart, CronField.render, CronField.specMatches]
  | step ds =>
    have hparse : jsParseIntD ds = some (digitsToNat ds) := jsParseIntD_digits hwf
    rw [CronField.render, matchesCronPart]
    rw [if_neg (by simp)]
    rw [if_pos (by simp)]
    have hdrop : ('*' :: '/' :: ds).drop 2 = ds := rfl
    rw [hdrop, hparse]
    simp only [CronField.specMatches]
    rw [if_neg hgood]
    simp [beq_iff_eq]
  | items l =>
    cases l with
    | nil => exact absurd rfl hwf.1
    | cons it l0 =>
      cases l0 with
      | nil =>
        -- a single item: the field is a bare integer or a bare range
        have hitwf : it.wf := hwf.2 it (List.mem_cons_self _ _)
        cases it with
        | exact ds =>
          have hrender : (CronField.items [CronItem.exact ds]).render = ds := by
            rw [CronField.render]; simp [CronItem.render, intercalate_singleton]
          rw [hrender, matchesCronPart]
          rw [if_neg (digits_ne_star hitwf)]
          rw [if_neg (digits_take_ne_step hitwf)]
          rw [if_neg (by
            rw [containsChar_eq_true_iff]
            exact digits_no_dash hitwf)]
          rw [if_neg (by
            rw [containsChar_eq_true_iff]
            exact digits_no_comma hitwf)]
          rw [jsParseIntD_digits hitwf]
          simp only [CronField.specMatches, CronItem.specMatches,
            List.mem_singleton, exists_eq_left, beq_iff_eq, Option.some.injEq]
          exact eq_comm
        | range lo hi =>
          obtain ⟨hlo, hhi⟩ := hitwf
          obtain ⟨x, lo', rfl⟩ : ∃ x lo', lo = x :: lo' := by
            cases lo with
            | nil => exact absurd rfl (allDigits_iff.mp hlo).1
            | cons x lo' => exact ⟨x, lo', rfl⟩
          have hxd : isDigitChar x = true :=
            (allDigits_iff.mp hlo).2 x (List.mem_cons_self _ _)
          have hrender : (CronField.items [CronItem.range (x :: lo') hi]).render
              = x :: (lo' ++ '-' :: hi) := by
            rw [CronField.render]
            simp [CronItem.render, intercalate_singleton]
          rw [hrender, matchesCronPart]
          rw [if_neg (by
            intro he
            have hx : x = '*' := (List.cons.injEq .. |>.mp he).1
            exact absurd hxd (hx ▸ (by decide)))]
          rw [if_neg (by
            intro he
            have hx : x = '*' := by
              have := (List.cons.injEq .. |>.mp (by simpa using he)).1
              exact this
            exact absurd hxd (hx ▸ (by decide)))]
          rw [if_pos (by
            rw [containsChar_eq_true_iff]
            exact List.mem_cons_of_mem _ (List.mem_append_right _ (List.mem_cons_self _ _)))]
          have hsplit : splitOnChar '-' (x :: (lo' ++ '-' :: hi)) = [x :: lo', hi] := by
            have h1 : splitOnChar '-' ((x :: lo') ++ '-' :: hi) = (x :: lo') :: splitOnChar '-' hi :=
              splitOnChar_first (fun y hy => digit_ne_of (by decide)
                ((allDigits_iff.mp hlo).2 y hy)) hi
            have h2 : splitOnChar '-' hi = [hi] :=
              splitOnChar_no_sep (fun y hy => digit_ne_of (by decide)
                ((allDigits_iff.mp hhi).2 y hy))
            simpa [h2] using h1
          rw [hsplit]
          simp only [List.getD, List.get?, Option.getD]
          rw [jsNumberD_digits hlo, jsNumberD_digits hhi]
          simp [CronField.specMatches, CronItem.specMatches]
      | cons it2 t =>
        -- at least two items: `good` forces all of them to be exact integers
        obtain ⟨dss, heq⟩ := all_exact_shape hgood
        obtain ⟨hne, hitems⟩ := hwf
        have hdigits : ∀ ds ∈ dss, allDigits ds = true := by
          intro ds hds
          have : CronItem.exact ds ∈ it :: it2 :: t := by
            rw [heq]; exact List.mem_map_of_mem _ hds
          exact hitems _ this
        obtain ⟨d1, d2, dt, rfl⟩ : ∃ d1 d2 dt, dss = d1 :: d2 :: dt := by
          rcases dss with _ | ⟨d1, _ | ⟨d2, dt⟩⟩
          · cases heq
          · rw [List.map] at heq; cases heq.symm ▸ (rfl : (it :: it2 :: t).length = t.length + 2) <;> simp_all
          · exact ⟨d1, d2, dt, rfl⟩
        have hrender : (CronField.items (it :: it2 :: t)).render
            = List.intercalate [','] (d1 :: d2 :: dt) := by
          rw [CronField.render, heq, map_render_exact]
        have hmem : ∀ x ∈ (CronField.items (it :: it2 :: t)).render,
            isDigitChar x = true ∨ x = ',' := by
          intro x hx
          rw [hrender] at hx
          rcases mem_intercalate_single hx with ⟨p, hp, hxp⟩ | rfl
          · exact Or.inl ((allDigits_iff.mp (hdigits p hp)).2 x hxp)
          · exact Or.inr rfl
        rw [matchesCronPart]
        rw [if_neg (by
          intro he
          rcases hmem '*' (he ▸ List.mem_singleton_self _) with h | h
          · exact absurd h (by decide)
          · cases h)]
        rw [if_neg (by
          intro he
          have : '*' ∈ (CronField.items (it :: it2 :: t)).render :=
            List.take_subset 2 _ (he ▸ List.mem_cons_self _ _)
          rcases hmem '*' this with h | h
          · exact absurd h (by decide)
          · cases h)]
        rw [if_neg (by
          rw [containsChar_eq_true_iff]
          intro hd
          rcases hmem '-' hd with h | h
          · exact absurd h (by decide)
          · cases h)]
        rw [if_pos (by
          rw [containsChar_eq_true_iff, hrender, intercalate_cons_cons]
          exact List.mem_append_left _ (List.mem_append_right _ (List.mem_singleton_self _)))]
        have hsplit : splitOnChar ',' (CronField.items (it :: it2 :: t)).render
            = d1 :: d2 :: dt := by
          rw [hrender]
          exact splitOnChar_intercalate ',' (by simp)
            (fun p hp => digits_no_comma (hdigits p hp))
        rw [hsplit]
        simp only [CronField.specMatches, heq, List.any_eq_true, List.mem_map]
        constructor
        · rintro ⟨p, hp, hpv⟩
          rw [jsNumberD_digits (hdigits p hp), beq_iff_eq, Option.some.injEq] at hpv
          exact ⟨CronItem.exact p, ⟨p, hp, rfl⟩, hpv.symm⟩
        · rintro ⟨itx, ⟨p, hp, rfl⟩, hit⟩
          rw [CronItem.specMatches] at hit
          exact ⟨p, hp, by rw [jsNumberD_digits (hdigits p hp)]; simp [hit]⟩

/-- Claim C1, amended (corrected): for a recurring event whose five fields
are §4.2 grammar fields in which no multi-item comma list contains a range
(and no step divisor is zero), the evaluator fires iff all five spec field
checks hold.  The excluded mixed fields are settled by
`matchesCronPart_counterexample`. -/
theorem shouldEventFire_cron_matches_spec
    (parseISO : String → Int) (e : ScheduledEvent) (now : TickInstant)
    (f1 f2 f3 f4 f5 : CronField)
    (hty : e.type = .cron)
    (hwf : f1.wf ∧ f2.wf ∧ f3.wf ∧ f4.wf ∧ f5.wf)
    (hgood : f1.good ∧ f2.good ∧ f3.good ∧ f4.good ∧ f5.good)
    (hsched : e.schedule.data =
      List.intercalate [' '] [f1.render, f2.render, f3.render, f4.render, f5.render]) :
    shouldEventFire parseISO e now = true ↔
      (f1.specMatches now.minute ∧ f2.specMatches now.hour ∧
       f3.specMatches now.dayOfMonth ∧ f4.specMatches now.month ∧
       f5.specMatches now.dayOfWeek) := by
  obtain ⟨hw1, hw2, hw3, hw4, hw5⟩ := hwf
  obtain ⟨hg1, hg2, hg3, hg4, hg5⟩ := hgood
  have hsplit : splitOnChar ' ' e.schedule.data
      = [f1.render, f2.render, f3.render, f4.render, f5.render] := by
    rw [hsched]
    refine splitOnChar_intercalate ' ' (by simp) ?_
    intro p hp
    simp only [List.mem_cons, List.not_mem_nil, or_false] at hp
    rcases hp with rfl | rfl | rfl | rfl | rfl
    · exact space_not_mem_render hw1
    · exact space_not_mem_render hw2
    · exact space_not_mem_render hw3
    · exact space_not_mem_render hw4
    · exact space_not_mem_render hw5
  rw [shouldEventFire, hty]
  simp only []
  rw [hsplit]
  simp only [Bool.and_eq_true]
  rw [matchesCronPart_eq_spec hw1 hg1, matchesCronPart_eq_spec hw2 hg2,
    matchesCronPart_eq_spec hw3 hg3, matchesCronPart_eq_spec hw4 hg4,
    matchesCronPart_eq_spec hw5 hg5]
  tauto

/-- Witness for `shouldEventFire_cron_matches_spec` at the concrete
schedule `30 9 * * 1-5` and the instant Wednesday 09:30. -/
theorem shouldEventFire_cron_matches_spec_witness :
    shouldEventFire (fun _ => 0)
      { id := "ev2", userId := "u1", guildId := none, channelId := "ch1",
        type := .cron, schedule := "30 9 * * 1-5", action := "act",
        mention := none, status := .active, createdAt := "t0",
        triggerCount := 0, description := "wit" }
      { epoch := 0, minute := 30, hour := 9, dayOfMonth := 7, month := 4,
        dayOfWeek := 3 } = true ↔
      ((CronField.items [.exact ['3', '0']]).specMatches 30 ∧
       (CronField.items [.exact ['9']]).specMatches 9 ∧
       CronField.star.specMatches 7 ∧
       CronField.star.specMatches 4 ∧
       (CronField.items [.range ['1'] ['5']]).specMatches 3) := by
  refine shouldEventFire_cron_matches_spec (fun _ => 0) _ _
    (.items [.exact ['3', '0']]) (.items [.exact ['9']]) .star .star
    (.items [.range ['1'] ['5']]) rfl ⟨?_, ?_, trivial, trivial, ?_⟩
    ⟨trivial, trivial, trivial, trivial, trivial⟩ (by decide)
  · refine ⟨by simp, ?_⟩
    intro it hit
    rcases List.mem_cons.mp hit with rfl | hit
    · exact (by decide : allDigits ['3', '0'] = true)
    · cases hit
  · refine ⟨by simp, ?_⟩
    intro it hit
    rcases List.mem_cons.mp hit with rfl | hit
    · exact (by decide : allDigits ['9'] = true)
    · cases hit
  · refine ⟨by simp, ?_⟩
    intro it hit
    rcases List.mem_cons.mp hit with rfl | hit
    · exact ⟨(by decide : allDigits ['1'] = true), (by decide : allDigits ['5'] = true)⟩
    · cases hit

/-- Claim C1 counterexample: the field `1-5,8` is a §4.2 comma list (items:
the range 1–5 and the exact value 8), and by the claim it matches the value
8; the evaluator dispatches any field containing `-` to the range branch,
where `Number("5,8")` is `NaN`, so the field matches nothing, and a
recurring event with this minute field does not fire at minute 8. -/
theorem matchesCronPart_counterexample :
    (CronField.items [.range ['1'] ['5'], .exact ['8']]).wf ∧
    (CronField.items [.range ['1'] ['5'], .exact ['8']]).render = "1-5,8".data ∧
    (CronField.items [.range ['1'] ['5'], .exact ['8']]).specMatches 8 ∧
    matchesCronPart ("1-5,8".data) 8 = false ∧
    matchesCronPart ("1-5,8".data) 3 = false ∧
    shouldEventFire (fun _ => 0)
      { id := "ev1", userId := "u1", guildId := none, channelId := "ch1",
        type := .cron, schedule := "1-5,8 * * * *", action := "act",
        mention := none, status := .active, createdAt := "t0",
        triggerCount := 0, description := "cex" }
      { epoch := 0, minute := 8, hour := 12, dayOfMonth := 7, month := 4,
        dayOfWeek := 2 } = false := by
  refine ⟨⟨by simp, ?_⟩, by decide, ?_, by decide, by decide, by decide⟩
  · intro it hit
    rcases List.mem_cons.mp hit with rfl | hit
    · exact ⟨(by decide : allDigits ['1'] = true), (by decide : allDigits ['5'] = true)⟩
    · rcases List.mem_cons.mp hit with rfl | hit
      · exact (by decide : allDigits ['8'] = true)
      · cases hit
  · exact ⟨.exact ['8'], by simp, (by decide : (8 : Nat) = digitsToNat ['8'])⟩

/-! ## Claim C2: selection of due `once` events -/

theorem shouldEventFire_once_iff (parseISO : String → Int)
    (e : ScheduledEvent) (now : TickInstant) (hty : e.type = .once) :
    shouldEventFire parseISO e now = true ↔
      (startOfMinute now.epoch = startOfMinute (parseISO e.schedule) ∨
       (parseISO e.schedule < now.epoch ∧ e.triggerCount = 0)) := by
  rw [shouldEventFire, hty]
  simp only [shouldFireNow, isInPast]
  by_cases h1 : startOfMinute now.epoch = startOfMinute (parseISO e.schedule)
  · simp [h1]
  · by_cases h2 : parseISO e.schedule < now.epoch
    · by_cases h3 : e.triggerCount = 0
      · simp [h1, h2, h3]
      · simp [h1, h2, h3]
    · simp [h1, h2]

/-- Claim C2 (confirmed): a tick selects an active `once` event as due iff
its scheduled instant falls in the current minute, or it is strictly in the
past with fire count 0; in particular an overdue never-fired `once` event
is selected on every tick, however old. -/
theorem dueEvents_once_spec (parseISO : String → Int)
    (store : List ScheduledEvent) (now : TickInstant) (e : ScheduledEvent)
    (hty : e.type = .once) :
    (e ∈ dueEvents parseISO store now ↔
      e ∈ store ∧ e.status = .active ∧
        (startOfMinute now.epoch = startOfMinute (parseISO e.schedule) ∨
         (parseISO e.schedule < now.epoch ∧ e.triggerCount = 0))) ∧
    (e ∈ store → e.status = .active → parseISO e.schedule < now.epoch →
      e.triggerCount = 0 → e ∈ dueEvents parseISO store now) := by
  have hmem : e ∈ dueEvents parseISO store now ↔
      e ∈ store ∧ e.status = .active ∧ shouldEventFire parseISO e now = true := by
    simp only [dueEvents, getActiveEvents, List.mem_filter, beq_iff_eq]
    tauto
  constructor
  · rw [hmem, shouldEventFire_once_iff parseISO e now hty]
  · intro hs hact hpast hcount
    rw [hmem]
    exact ⟨hs, hact, (shouldEventFire_once_iff parseISO e now hty).mpr
      (Or.inr ⟨hpast, hcount⟩)⟩

/-- Witness for `dueEvents_once_spec`: the overdue `once` fixture is due on
a tick two minutes after its scheduled instant. -/
theorem dueEvents_once_spec_witness :
    onceEventOverdue ∈ dueEvents (fun _ => 0) [onceEventOverdue] tickTwoMinutes :=
  (dueEvents_once_spec (fun _ => 0) [onceEventOverdue] tickTwoMinutes
      onceEventOverdue rfl).2
    (List.mem_singleton_self _) rfl (by decide) rfl

/-! ## Claim C3: the fired-task tool catalog excludes the scheduler -/

/-- Claim C3 (confirmed): the catalog assembled for a fired scheduled
task's invocation (the options `fireEvent` passes, with the scheduler
excluded) never contains the scheduling tool, while the catalog of a live
invocation (`handleMessage` passes no options) always does. -/
theorem fired_task_catalog_excludes_scheduler :
    (∀ ctx : ToolContext,
      "manage_schedule" ∉ agentToolCatalog ctx fireEventAgentOptions) ∧
    (∀ ctx : ToolContext,
      "manage_schedule" ∈ agentToolCatalog ctx handleMessageAgentOptions) := by
  constructor
  · intro ctx
    simp [agentToolCatalog, createAllTools, toolsOptionsOf, fireEventAgentOptions]
  · intro ctx
    simp [agentToolCatalog, createAllTools, toolsOptionsOf, handleMessageAgentOptions]

/-! ## Claim C4: the history effect of `skipHistory` -/

/-- Claim C4 counterexample: a `skipHistory` invocation still writes the
history store — starting from an empty store, the input and the final
answer are appended, so the store after the call differs from the store
before. -/
theorem executeAgentHistory_counterexample :
    (executeAgentHistory 20 fireEventAgentOptions [] "input" "answer" "t1" "t2").store
      = [⟨.human, "input", "t1"⟩, ⟨.ai, "answer", "t2"⟩] ∧
    (executeAgentHistory 20 fireEventAgentOptions [] "input" "answer" "t1" "t2").store
      ≠ [] :=
  ⟨rfl, by decide⟩

/-- Claim C4, amended (corrected): with `skipHistory` set, no prior turns
are loaded into the prompt, but the two `addToHistory` calls still run:
the input and the final answer are appended to the per-channel store (shown
here below the trim bound). -/
theorem executeAgentHistory_skipHistory_amended
    (maxMessages : Nat) (options : RunAgentOptions)
    (hist : List StoredMessage) (input output ts1 ts2 : String)
    (hskip : options.skipHistory = true) :
    (executeAgentHistory maxMessages options hist input output ts1 ts2).loaded = [] ∧
    (hist.length + 2 ≤ maxMessages →
      (executeAgentHistory maxMessages options hist input output ts1 ts2).store
        = hist ++ [⟨.human, input, ts1⟩, ⟨.ai, output, ts2⟩]) := by
  constructor
  · simp [executeAgentHistory, hskip]
  · intro hlen
    have h1 : addToHistory maxMessages hist .human input ts1
        = hist ++ [⟨.human, input, ts1⟩] := by
      simp only [addToHistory, saveHistoryTrim]
      rw [if_neg (by simp only [List.length_append, List.length_singleton]; omega)]
    have h2 : addToHistory maxMessages (hist ++ [⟨.human, input, ts1⟩]) .ai output ts2
        = hist ++ [⟨.human, input, ts1⟩, ⟨.ai, output, ts2⟩] := by
      simp only [addToHistory, saveHistoryTrim]
      rw [if_neg (by simp only [List.length_append, List.length_singleton]; omega)]
      simp
    show addToHistory maxMessages (addToHistory maxMessages hist .human input ts1)
        .ai output ts2 = _
    rw [h1, h2]

/-- Witness for `executeAgentHistory_skipHistory_amended` at a concrete
`skipHistory` invocation. -/
theorem executeAgentHistory_skipHistory_amended_witness :
    (executeAgentHistory 20 fireEventAgentOptions [] "a" "b" "t1" "t2").loaded = [] ∧
    (([] : List StoredMessage).length + 2 ≤ 20 →
      (executeAgentHistory 20 fireEventAgentOptions [] "a" "b" "t1" "t2").store
        = [] ++ [⟨.human, "a", "t1"⟩, ⟨.ai, "b", "t2"⟩]) :=
  executeAgentHistory_skipHistory_amended 20 fireEventAgentOptions [] "a" "b" "t1" "t2" rfl

/-! ## Ledger lemmas: `updateFirst` and `find?` -/

theorem updateFirst_length (p : α → Bool) (f : α → α) :
    ∀ s : List α, (updateFirst p f s).length = s.length := by
  intro s
  induction s with
  | nil => rfl
  | cons x xs ih =>
    rw [updateFirst]
    by_cases hx : p x
    · simp [hx]
    · simp [hx, ih]

theorem mem_updateFirst {p : α → Bool} {f : α → α} :
    ∀ {s : List α} {x : α}, x ∈ updateFirst p f s →
      x ∈ s ∨ ∃ a, s.find? p = some a ∧ x = f a := by
  intro s
  induction s with
  | nil => intro x hx; cases hx
  | cons y ys ih =>
    intro x hx
    rw [updateFirst] at hx
    by_cases hy : p y
    · rw [if_pos hy] at hx
      rcases List.mem_cons.mp hx with rfl | hx
      · exact Or.inr ⟨y, by rw [List.find?_cons_of_pos _ hy], rfl⟩
      · exact Or.inl (List.mem_cons_of_mem _ hx)
    · rw [if_neg hy] at hx
      rcases List.mem_cons.mp hx with rfl | hx
      · exact Or.inl (List.mem_cons_self _ _)
      · rcases ih hx with h | ⟨a, ha, rfl⟩
        · exact Or.inl (List.mem_cons_of_mem _ h)
        · refine Or.inr ⟨a, ?_, rfl⟩
          rw [List.find?_cons_of_neg _ (by simpa using hy), ha]

theorem mem_updateFirst_of_not {p : α → Bool} {f : α → α} :
    ∀ {s : List α} {x : α}, x ∈ s → p x = false → x ∈ updateFirst p f s := by
  intro s
  induction s with
  | nil => intro x hx; cases hx
  | cons y ys ih =>
    intro x hx hpx
    rw [updateFirst]
    rcases List.mem_cons.mp hx with rfl | hx
    · rw [if_neg (by simp [hpx])]
      exact List.mem_cons_self _ _
    · by_cases hy : p y
      · rw [if_pos hy]
        exact List.mem_cons_of_mem _ hx
      · rw [if_neg hy]
        exact List.mem_cons_of_mem _ (ih hx hpx)

theorem updated_mem_updateFirst {p : α → Bool} (f : α → α) :
    ∀ {s : List α} {a : α}, s.find? p = some a → f a ∈ updateFirst p f s := by
  intro s
  induction s with
  | nil => intro a ha; cases ha
  | cons y ys ih =>
    intro a ha
    rw [updateFirst]
    by_cases hy : p y
    · rw [List.find?_cons_of_pos _ hy, Option.some.injEq] at ha
      subst ha
      rw [if_pos hy]
      exact List.mem_cons_self _ _
    · rw [List.find?_cons_of_neg _ (by simpa using hy)] at ha
      rw [if_neg hy]
      exact List.mem_cons_of_mem _ (ih ha)

theorem find?_updateFirst {p : α → Bool} {f : α → α}
    (hpf : ∀ a, p a = true → p (f a) = true) :
    ∀ s : List α, (updateFirst p f s).find? p = (s.find? p).map f := by
  intro s
  induction s with
  | nil => rfl
  | cons y ys ih =>
    rw [updateFirst]
    by_cases hy : p y
    · rw [if_pos hy, List.find?_cons_of_pos _ (hpf y hy), List.find?_cons_of_pos _ hy]
      rfl
    · rw [if_neg hy, List.find?_cons_of_neg _ (by simpa using hy),
        List.find?_cons_of_neg _ (by simpa using hy), ih]

theorem updateFirst_get? {p : α → Bool} {f : α → α} :
    ∀ (s : List α) (i : Nat),
      (updateFirst p f s).get? i = s.get? i ∨
      ∃ a, s.get? i = some a ∧ (updateFirst p f s).get? i = some (f a) ∧
        s.find? p = some a := by
  intro s
  induction s with
  | nil => intro i; left; rfl
  | cons y ys ih =>
    intro i
    by_cases hy : p y
    · have hu : updateFirst p f (y :: ys) = f y :: ys := by
        rw [updateFirst, if_pos hy]
      cases i with
      | zero =>
        right
        exact ⟨y, rfl, by rw [hu]; rfl, by rw [List.find?_cons_of_pos _ hy]⟩
      | succ j =>
        left
        rw [hu]
        rfl
    · have hu : updateFirst p f (y :: ys) = y :: updateFirst p f ys := by
        rw [updateFirst, if_neg hy]
      cases i with
      | zero =>
        left
        rw [hu]
        rfl
      | succ j =>
        rw [hu]
        rcases ih j with h | ⟨a, ha1, ha2, ha3⟩
        · left
          simpa using h
        · right
          refine ⟨a, by simpa using ha1, by simpa using ha2, ?_⟩
          rw [List.find?_cons_of_neg _ (by simpa using hy), ha3]

theorem find?_of_mem_nodup {s : List ScheduledEvent} {e : ScheduledEvent}
    {eventId : String} (hnd : (s.map (fun x => x.id)).Nodup)
    (he : e ∈ s) (hid : e.id = eventId) :
    s.find? (fun x => x.id == eventId) = some e := by
  induction s with
  | nil => cases he
  | cons y ys ih =>
    rw [List.map_cons, List.nodup_cons] at hnd
    rcases List.mem_cons.mp he with rfl | he
    · rw [List.find?_cons_of_pos _ (by simp [hid])]
    · have hyid : y.id ≠ eventId := by
        intro hcontra
        have h1 : e.id ∈ ys.map (fun x => x.id) :=
          List.mem_map_of_mem (fun x => x.id) he
        rw [hid, ← hcontra] at h1
        exact hnd.1 h1
      rw [List.find?_cons_of_neg _ (by simp [hyid])]
      exact ih hnd.2 he

theorem cancelUpdate_status (now : String) (e : ScheduledEvent) :
    (cancelUpdate now e).status = .cancelled := rfl

theorem cancelUpdate_type (now : String) (e : ScheduledEvent) :
    (cancelUpdate now e).type = e.type := rfl

theorem cancelUpdate_triggerCount (now : String) (e : ScheduledEvent) :
    (cancelUpdate now e).triggerCount = e.triggerCount := rfl

theorem cancelUpdate_id (now : String) (e : ScheduledEvent) :
    (cancelUpdate now e).id = e.id := rfl

theorem cancelUpdate_completedAt (now : String) (e : ScheduledEvent) :
    (cancelUpdate now e).completedAt = some now := rfl

theorem fireUpdate_type (now : String) (e : ScheduledEvent) :
    (fireUpdate now e).type = e.type := by
  rw [fireUpdate]
  by_cases h : e.type = ScheduleType.once
  · simp only [h]
    rfl
  · simp only [if_neg h]

theorem fireUpdate_triggerCount (now : String) (e : ScheduledEvent) :
    (fireUpdate now e).triggerCount = e.triggerCount + 1 := by
  rw [fireUpdate]
  by_cases h : e.type = ScheduleType.once
  · simp only [h]
    rfl
  · simp only [if_neg h]

theorem fireUpdate_id (now : String) (e : ScheduledEvent) :
    (fireUpdate now e).id = e.id := by
  rw [fireUpdate]
  by_cases h : e.type = ScheduleType.once
  · simp only [h]
    rfl
  · simp only [if_neg h]

theorem fireUpdate_status_once (now : String) (e : ScheduledEvent)
    (h : e.type = .once) : (fireUpdate now e).status = .completed := by
  rw [fireUpdate]
  simp only [h]
  rfl

theorem fireUpdate_status_cron (now : String) (e : ScheduledEvent)
    (h : e.type = .cron) : (fireUpdate now e).status = e.status := by
  rw [fireUpdate]
  rw [if_neg (by simp [h])]

theorem cancelEvent_none {s : List ScheduledEvent} {eventId : String}
    (now : String) (hfind : s.find? (fun x => x.id == eventId) = none) :
    cancelEvent s eventId now = (false, s) := by
  simp [cancelEvent, hfind]

theorem cancelEvent_some_active {s : List ScheduledEvent} {eventId : String}
    {a : ScheduledEvent} (now : String)
    (hfind : s.find? (fun x => x.id == eventId) = some a)
    (hact : a.status = .active) :
    cancelEvent s eventId now
      = (true, updateFirst (fun x => x.id == eventId) (cancelUpdate now) s) := by
  simp [cancelEvent, hfind, hact]

theorem cancelEvent_some_not_active {s : List ScheduledEvent} {eventId : String}
    {a : ScheduledEvent} (now : String)
    (hfind : s.find? (fun x => x.id == eventId) = some a)
    (hact : a.status ≠ .active) :
    cancelEvent s eventId now = (false, s) := by
  simp [cancelEvent, hfind, hact]

/-! ## Claim C6: a `once` event fires at most once -/

theorem onceInv_step {s s' : List ScheduledEvent} (hstep : LedgerStep s s')
    (hinv : ∀ e ∈ s, e.type = .once →
      (e.status = .active → e.triggerCount = 0) ∧ e.triggerCount ≤ 1) :
    ∀ e ∈ s', e.type = .once →
      (e.status = .active → e.triggerCount = 0) ∧ e.triggerCount ≤ 1 := by
  obtain ⟨op, hok, rfl⟩ := hstep
  cases op with
  | create d newId now =>
    intro e he hty
    simp only [applyOp, createScheduledEvent] at he
    rcases List.mem_append.mp he with he | he
    · exact hinv e he hty
    · rw [List.mem_singleton] at he
      subst he
      exact ⟨fun _ => rfl, by simp [mkScheduledEvent]⟩
  | cancel eventId now =>
    intro e he hty
    simp only [applyOp] at he
    rcases hfind : s.find? (fun x => x.id == eventId) with _ | a
    · rw [cancelEvent_none now hfind] at he
      exact hinv e he hty
    · by_cases hact : a.status = ScheduleStatus.active
      · rw [cancelEvent_some_active now hfind hact] at he
        rcases mem_updateFirst he with he | ⟨b, hb, rfl⟩
        · exact hinv e he hty
        · have hbmem : b ∈ s := List.mem_of_find?_eq_some hb
          rw [cancelUpdate_type] at hty
          have hbinv := hinv b hbmem hty
          refine ⟨fun hst => ?_, by rw [cancelUpdate_triggerCount]; exact hbinv.2⟩
          rw [cancelUpdate_status] at hst
          cases hst
      · rw [cancelEvent_some_not_active now hfind hact] at he
        exact hinv e he hty
  | cancelAll userId now =>
    intro e he hty
    simp only [applyOp, cancelUserEvents] at he
    rw [List.mem_map] at he
    obtain ⟨a, ha, rfl⟩ := he
    by_cases hc : (a.userId == userId && a.status == ScheduleStatus.active) = true
    · rw [if_pos hc] at hty ⊢
      rw [cancelUpdate_type] at hty
      have hainv := hinv a ha hty
      refine ⟨fun hst => ?_, by rw [cancelUpdate_triggerCount]; exact hainv.2⟩
      rw [cancelUpdate_status] at hst
      cases hst
    · rw [if_neg hc] at hty ⊢
      exact hinv a ha hty
  | fire eventId now =>
    intro e he hty
    obtain ⟨a, hfind, hact⟩ := hok
    simp only [applyOp, markEventTriggered] at he
    rcases mem_updateFirst he with he | ⟨b, hb, rfl⟩
    · exact hinv e he hty
    · have hab : b = a := by
        rw [hfind] at hb
        exact (Option.some.injEq .. |>.mp hb).symm
      subst hab
      have hbmem : b ∈ s := List.mem_of_find?_eq_some hfind
      rw [fireUpdate_type] at hty
      have hcount : b.triggerCount = 0 := (hinv b hbmem hty).1 hact
      refine ⟨fun hst => ?_, by rw [fireUpdate_triggerCount, hcount]⟩
      rw [fireUpdate_status_once now b hty] at hst
      cases hst

/-- Claim C6 (confirmed): in every ledger state reachable from the empty
ledger by create/cancel/cancel-all/firing-loop-markFired operations, every
`once` event has fire count 0 or 1 — the first `markEventTriggered` moves
it to `completed`, and the firing loop only fires `active` events. -/
theorem once_fires_at_most_once (s : List ScheduledEvent)
    (h : LedgerReachable s) :
    ∀ e ∈ s, e.type = .once → e.triggerCount = 0 ∨ e.triggerCount = 1 := by
  have hinv : ∀ e ∈ s, e.type = .once →
      (e.status = .active → e.triggerCount = 0) ∧ e.triggerCount ≤ 1 := by
    induction h with
    | refl => intro e he; cases he
    | tail _ hstep ih => exact onceInv_step hstep ih
  intro e he hty
  have := (hinv e he hty).2
  omega

/-- Witness for `once_fires_at_most_once`: create one `once` event and fire
it; the fired record of the resulting ledger has fire count 0 or 1. -/
theorem once_fires_at_most_once_witness :
    (fireUpdate "t1" (mkScheduledEvent sampleDraft "id1" "t0")).triggerCount = 0 ∨
    (fireUpdate "t1" (mkScheduledEvent sampleDraft "id1" "t0")).triggerCount = 1 :=
  once_fires_at_most_once
    (markEventTriggered ((createScheduledEvent [] sampleDraft "id1" "t0").2)
      "id1" "t1")
    (Relation.ReflTransGen.tail
      (Relation.ReflTransGen.tail Relation.ReflTransGen.refl
        ⟨.create sampleDraft "id1" "t0", trivial, rfl⟩)
      ⟨.fire "id1" "t1", ⟨mkScheduledEvent sampleDraft "id1" "t0", rfl, rfl⟩, rfl⟩)
    (fireUpdate "t1" (mkScheduledEvent sampleDraft "id1" "t0"))
    (by decide) (by decide)

/-! ## Claim C7: record count and terminal statuses under raw operations -/

theorem applyOp_create_length (d : EventDraft) (newId now : String)
    (s : List ScheduledEvent) :
    (applyOp (.create d newId now) s).length = s.length + 1 := by
  simp [applyOp, createScheduledEvent]

theorem applyOp_cancel_length (eventId now : String) (s : List ScheduledEvent) :
    (applyOp (.cancel eventId now) s).length = s.length := by
  rcases hfind : s.find? (fun x => x.id == eventId) with _ | a
  · rw [show applyOp (.cancel eventId now) s = s from by
      simp [applyOp, cancelEvent_none now hfind]]
  · by_cases hact : a.status = ScheduleStatus.active
    · rw [show applyOp (.cancel eventId now) s
          = updateFirst (fun x => x.id == eventId) (cancelUpdate now) s from by
        simp [applyOp, cancelEvent_some_active now hfind hact]]
      exact updateFirst_length _ _ s
    · rw [show applyOp (.cancel eventId now) s = s from by
        simp [applyOp, cancelEvent_some_not_active now hfind hact]]

theorem applyOp_cancelAll_length (userId now : String) (s : List ScheduledEvent) :
    (applyOp (.cancelAll userId now) s).length = s.length := by
  simp [applyOp, cancelUserEvents]

theorem applyOp_fire_length (eventId now : String) (s : List ScheduledEvent) :
    (applyOp (.fire eventId now) s).length = s.length := by
  simp [applyOp, markEventTriggered, updateFirst_length]

theorem applyOp_terminal_status (op : LedgerOp) (s : List ScheduledEvent)
    (i : Nat) (e : ScheduledEvent) (hget : s.get? i = some e)
    (hterm : e.status = .completed ∨ e.status = .cancelled) :
    ∃ e', (applyOp op s).get? i = some e' ∧
      (e'.status = e.status ∨
       (e.type = .once ∧ e.status = .cancelled ∧ e'.status = .completed ∧
        ∃ eventId now, op = .fire eventId now ∧
          s.find? (fun x => x.id == eventId) = some e)) := by
  cases op with
  | create d newId now =>
    refine ⟨e, ?_, Or.inl rfl⟩
    have hi : i < s.length := (List.get?_eq_some.mp hget).1
    simp only [applyOp, createScheduledEvent]
    rw [List.get?_append hi]
    exact hget
  | cancel eventId now =>
    rcases hfind : s.find? (fun x => x.id == eventId) with _ | a
    · rw [show applyOp (.cancel eventId now) s = s from by
        simp [applyOp, cancelEvent_none now hfind]]
      exact ⟨e, hget, Or.inl rfl⟩
    · by_cases hact : a.status = ScheduleStatus.active
      · rw [show applyOp (.cancel eventId now) s
            = updateFirst (fun x => x.id == eventId) (cancelUpdate now) s from by
          simp [applyOp, cancelEvent_some_active now hfind hact]]
        rcases updateFirst_get? (p := fun x => x.id == eventId)
            (f := cancelUpdate now) s i with h | ⟨b, hb1, hb2, hb3⟩
        · exact ⟨e, h.symm ▸ hget, Or.inl rfl⟩
        · rw [hget] at hb1
          have hbe : b = e := (Option.some.injEq .. |>.mp hb1.symm)
          subst hbe
          rw [hfind] at hb3
          have hba : b = a := (Option.some.injEq .. |>.mp hb3.symm)
          subst hba
          rcases hterm with hterm | hterm <;> rw [hact] at hterm <;> cases hterm
      · rw [show applyOp (.cancel eventId now) s = s from by
          simp [applyOp, cancelEvent_some_not_active now hfind hact]]
        exact ⟨e, hget, Or.inl rfl⟩
  | cancelAll userId now =>
    simp only [applyOp, cancelUserEvents]
    refine ⟨e, ?_, Or.inl rfl⟩
    rw [List.get?_map, hget]
    have hcond : (e.userId == userId && e.status == ScheduleStatus.active) = false := by
      rcases hterm with hterm | hterm <;> simp [hterm]
    rw [Option.map]
    rw [if_neg (by simp [hcond])]
  | fire eventId now =>
    simp only [applyOp, markEventTriggered]
    rcases updateFirst_get? (p := fun x => x.id == eventId)
        (f := fireUpdate now) s i with h | ⟨b, hb1, hb2, hb3⟩
    · exact ⟨e, h ▸ hget, Or.inl rfl⟩
    · rw [hget] at hb1
      have hbe : b = e := (Option.some.injEq .. |>.mp hb1.symm)
      subst hbe
      refine ⟨fireUpdate now b, hb2, ?_⟩
      rcases hty : b.type with _ | _
      · -- a `once` event: `fireUpdate` sets `completed`
        rcases hterm with hterm | hterm
        · exact Or.inl (by rw [fireUpdate_status_once now b hty, hterm])
        · exact Or.inr ⟨rfl, hterm, fireUpdate_status_once now b hty,
            eventId, now, rfl, hb3⟩
      · -- a `cron` event: `fireUpdate` keeps the status
        exact Or.inl (fireUpdate_status_cron now b hty)

/-- Claim C7 counterexample: the sequence create(`once`) → cancel →
markFired is a sequence of the claim's operations, and on it
`markEventTriggered` — which has no status guard — finds the cancelled
record and sets its status to `completed`: an operation changes the status
of a `cancelled` event. -/
theorem ledger_terminal_status_counterexample :
    ((cancelEvent [mkScheduledEvent sampleDraft "id1" "t0"] "id1" "t1").2.get? 0).map
        (fun e => e.type) = some .once ∧
    ((cancelEvent [mkScheduledEvent sampleDraft "id1" "t0"] "id1" "t1").2.get? 0).map
        (fun e => e.status) = some .cancelled ∧
    ((applyOp (.fire "id1" "t2")
        (cancelEvent [mkScheduledEvent sampleDraft "id1" "t0"] "id1" "t1").2).get? 0).map
        (fun e => e.status) = some .completed ∧
    ScheduleStatus.completed ≠ ScheduleStatus.cancelled :=
  ⟨by decide, by decide, by decide, by decide⟩

/-- Claim C7, amended (corrected): under any sequence of raw
create/cancel/cancel-all/markFired operations the record count never
decreases — create appends exactly one record, every other operation
preserves the count, mutating fields in place — and no operation changes
the status of a `completed` or `cancelled` event, with the one exception
the code forces: an unguarded markFired whose id finds a `cancelled`
`once` event sets that event's status to `completed`. -/
theorem ledger_raw_append_only :
    (∀ s s', Relation.ReflTransGen RawLedgerStep s s' → s.length ≤ s'.length) ∧
    (∀ (d : EventDraft) (newId now : String) (s : List ScheduledEvent),
      (applyOp (.create d newId now) s).length = s.length + 1) ∧
    (∀ (eventId now : String) (s : List ScheduledEvent),
      (applyOp (.cancel eventId now) s).length = s.length) ∧
    (∀ (userId now : String) (s : List ScheduledEvent),
      (applyOp (.cancelAll userId now) s).length = s.length) ∧
    (∀ (eventId now : String) (s : List ScheduledEvent),
      (applyOp (.fire eventId now) s).length = s.length) ∧
    (∀ (op : LedgerOp) (s : List ScheduledEvent) (i : Nat) (e : ScheduledEvent),
      s.get? i = some e → (e.status = .completed ∨ e.status = .cancelled) →
      ∃ e', (applyOp op s).get? i = some e' ∧
        (e'.status = e.status ∨
         (e.type = .once ∧ e.status = .cancelled ∧ e'.status = .completed ∧
          ∃ eventId now, op = .fire eventId now ∧
            s.find? (fun x => x.id == eventId) = some e))) := by
  refine ⟨?_, applyOp_create_length, applyOp_cancel_length,
    applyOp_cancelAll_length, applyOp_fire_length, applyOp_terminal_status⟩
  intro s s' h
  induction h with
  | refl => exact le_refl _
  | tail _ hbc ih =>
    obtain ⟨op, rfl⟩ := hbc
    refine le_trans ih ?_
    cases op with
    | create d newId now => rw [applyOp_create_length]; omega
    | cancel eventId now => rw [applyOp_cancel_length]
    | cancelAll userId now => rw [applyOp_cancelAll_length]
    | fire eventId now => rw [applyOp_fire_length]

/-- Witness for `ledger_raw_append_only`: its status clause evaluated on
the concrete cancelled-then-marked `once` event (the exception disjunct is
the one that holds there). -/
theorem ledger_raw_append_only_witness :
    ∃ e', (applyOp (.fire "id1" "t2")
        (cancelEvent [mkScheduledEvent sampleDraft "id1" "t0"] "id1" "t1").2).get? 0
      = some e' ∧
      (e'.status = (cancelUpdate "t1" (mkScheduledEvent sampleDraft "id1" "t0")).status ∨
       ((cancelUpdate "t1" (mkScheduledEvent sampleDraft "id1" "t0")).type = .once ∧
        (cancelUpdate "t1" (mkScheduledEvent sampleDraft "id1" "t0")).status = .cancelled ∧
        e'.status = .completed ∧
        ∃ eventId now, LedgerOp.fire "id1" "t2" = .fire eventId now ∧
          (cancelEvent [mkScheduledEvent sampleDraft "id1" "t0"] "id1" "t1").2.find?
            (fun x => x.id == eventId)
              = some (cancelUpdate "t1" (mkScheduledEvent sampleDraft "id1" "t0")))) :=
  ledger_raw_append_only.2.2.2.2.2 (.fire "id1" "t2")
    (cancelEvent [mkScheduledEvent sampleDraft "id1" "t0"] "id1" "t1").2 0
    (cancelUpdate "t1" (mkScheduledEvent sampleDraft "id1" "t0"))
    (by decide) (by decide)

/-! ## Claim C8: `cancelEvent` semantics and idempotence -/

/-- Claim C8 (confirmed): `cancel(id)` returns true — transitioning the
event to `cancelled` with `completedAt = now` and leaving every other
record in place — iff an event with that id exists and is `active`;
otherwise it returns false and leaves the ledger unchanged; hence a second
cancel of the same id returns false. -/
theorem cancelEvent_full_spec (s : List ScheduledEvent) (eventId now : String)
    (hnd : (s.map (fun x => x.id)).Nodup) :
    ((cancelEvent s eventId now).1 = true ↔
      ∃ e ∈ s, e.id = eventId ∧ e.status = .active) ∧
    ((cancelEvent s eventId now).1 = false → (cancelEvent s eventId now).2 = s) ∧
    (∀ e ∈ s, e.id = eventId → e.status = .active →
      cancelUpdate now e ∈ (cancelEvent s eventId now).2) ∧
    (∀ x ∈ s, x.id ≠ eventId → x ∈ (cancelEvent s eventId now).2) ∧
    ((cancelEvent s eventId now).1 = true →
      ∀ now2 : String, (cancelEvent (cancelEvent s eventId now).2 eventId now2).1
        = false) := by
  refine ⟨⟨?_, ?_⟩, ?_, ?_, ?_, ?_⟩
  · intro htrue
    rcases hfind : s.find? (fun x => x.id == eventId) with _ | a
    · rw [cancelEvent_none now hfind] at htrue
      cases htrue
    · by_cases hact : a.status = ScheduleStatus.active
      · exact ⟨a, List.mem_of_find?_eq_some hfind,
          by simpa using List.find?_some hfind, hact⟩
      · rw [cancelEvent_some_not_active now hfind hact] at htrue
        cases htrue
  · rintro ⟨e, he, hid, hact⟩
    rw [cancelEvent_some_active now (find?_of_mem_nodup hnd he hid) hact]
  · intro hfalse
    rcases hfind : s.find? (fun x => x.id == eventId) with _ | a
    · rw [cancelEvent_none now hfind]
    · by_cases hact : a.status = ScheduleStatus.active
      · rw [cancelEvent_some_active now hfind hact] at hfalse
        cases hfalse
      · rw [cancelEvent_some_not_active now hfind hact]
  · intro e he hid hact
    rw [cancelEvent_some_active now (find?_of_mem_nodup hnd he hid) hact]
    exact updated_mem_updateFirst _ (find?_of_mem_nodup hnd he hid)
  · intro x hx hxid
    rcases hfind : s.find? (fun x => x.id == eventId) with _ | a
    · rw [cancelEvent_none now hfind]
      exact hx
    · by_cases hact : a.status = ScheduleStatus.active
      · rw [cancelEvent_some_active now hfind hact]
        exact mem_updateFirst_of_not hx (by simp [hxid])
      · rw [cancelEvent_some_not_active now hfind hact]
        exact hx
  · intro htrue now2
    rcases hfind : s.find? (fun x => x.id == eventId) with _ | a
    · rw [cancelEvent_none now hfind] at htrue
      cases htrue
    · by_cases hact : a.status = ScheduleStatus.active
      · rw [cancelEvent_some_active now hfind hact]
        have hfind2 : (updateFirst (fun x => x.id == eventId) (cancelUpdate now) s).find?
            (fun x => x.id == eventId) = some (cancelUpdate now a) := by
          rw [find?_updateFirst (fun b hb => by
            simpa [cancelUpdate_id] using hb) s, hfind]
          rfl
        rw [cancelEvent_some_not_active now2 hfind2 (by
          rw [cancelUpdate_status]
          intro hcontra
          cases hcontra)]
      · rw [cancelEvent_some_not_active now hfind hact] at htrue
        cases htrue

/-- Witness for `cancelEvent_full_spec` on a one-event ledger. -/
theorem cancelEvent_full_spec_witness :
    ((cancelEvent [mkScheduledEvent sampleDraft "id1" "t0"] "id1" "t1").1 = true ↔
      ∃ e ∈ [mkScheduledEvent sampleDraft "id1" "t0"],
        e.id = "id1" ∧ e.status = .active) ∧
    ((cancelEvent [mkScheduledEvent sampleDraft "id1" "t0"] "id1" "t1").1 = false →
      (cancelEvent [mkScheduledEvent sampleDraft "id1" "t0"] "id1" "t1").2
        = [mkScheduledEvent sampleDraft "id1" "t0"]) ∧
    (∀ e ∈ [mkScheduledEvent sampleDraft "id1" "t0"], e.id = "id1" →
      e.status = .active →
      cancelUpdate "t1" e ∈ (cancelEvent [mkScheduledEvent sampleDraft "id1" "t0"]
        "id1" "t1").2) ∧
    (∀ x ∈ [mkScheduledEvent sampleDraft "id1" "t0"], x.id ≠ "id1" →
      x ∈ (cancelEvent [mkScheduledEvent sampleDraft "id1" "t0"] "id1" "t1").2) ∧
    ((cancelEvent [mkScheduledEvent sampleDraft "id1" "t0"] "id1" "t1").1 = true →
      ∀ now2 : String,
        (cancelEvent (cancelEvent [mkScheduledEvent sampleDraft "id1" "t0"]
          "id1" "t1").2 "id1" now2).1 = false) :=
  cancelEvent_full_spec [mkScheduledEvent sampleDraft "id1" "t0"] "id1" "t1"
    (by simp)

/-! ## Claim C10: message chunking in `fireEvent` -/

theorem chunkMessage_spec : ∀ (n : Nat) (s : Str), s.length ≤ n →
    (∀ c ∈ chunkMessage s, c ≠ [] ∧ c.length ≤ 1990) ∧
    (chunkMessage s).join = s := by
  intro n
  induction n with
  | zero =>
    intro s hs
    have hnil : s = [] := List.eq_nil_of_length_eq_zero (Nat.le_zero.mp hs)
    subst hnil
    rw [chunkMessage]
    simp
  | succ n ih =>
    intro s hs
    by_cases hnil : s = []
    · subst hnil
      rw [chunkMessage]
      simp
    · rw [chunkMessage, dif_neg hnil]
      have hpos : 0 < s.length := List.length_pos.mpr hnil
      have hdrop : (s.drop 1990).length ≤ n := by
        rw [List.length_drop]
        omega
      obtain ⟨ihb, ihj⟩ := ih (s.drop 1990) hdrop
      constructor
      · intro c hc
        rcases List.mem_cons.mp hc with rfl | hc
        · refine ⟨?_, by simpa using List.length_take_le 1990 s⟩
          rw [Ne, List.take_eq_nil_iff]
          rintro (h | h)
          · cases h
          · exact hnil h
        · exact ihb c hc
      · show List.take 1990 s ++ (chunkMessage (List.drop 1990 s)).join = s
        rw [ihj, List.take_append_drop]

/-- Claim C10 (confirmed): when a fired event's outgoing message exceeds
2000 characters, `fireEvent` sends greedy chunks of at most 1990
characters, and their concatenation in order is exactly the original
message — nothing lost or duplicated. -/
theorem fireEventSendPlan_spec (message : Str) (hlen : message.length > 2000) :
    (∀ c ∈ fireEventSendPlan message, c.length ≤ 1990) ∧
    (fireEventSendPlan message).join = message := by
  rw [fireEventSendPlan, if_pos hlen]
  obtain ⟨hb, hj⟩ := chunkMessage_spec message.length message (le_refl _)
  exact ⟨fun c hc => (hb c hc).2, hj⟩

/-- Witness for `fireEventSendPlan_spec` on a 2001-character message. -/
theorem fireEventSendPlan_spec_witness :
    (∀ c ∈ fireEventSendPlan (List.replicate 2001 'a'), c.length ≤ 1990) ∧
    (fireEventSendPlan (List.replicate 2001 'a')).join
      = List.replicate 2001 'a' :=
  fireEventSendPlan_spec _ (by simp only [List.length_replicate]; omega)

/-! ## Claim C5: the relative-time parser and the timezone shift -/

theorem digit_cases {x : Char} (h : isDigitChar x = true) :
    x = '0' ∨ x = '1' ∨ x = '2' ∨ x = '3' ∨ x = '4' ∨
    x = '5' ∨ x = '6' ∨ x = '7' ∨ x = '8' ∨ x = '9' := by
  simp only [isDigitChar, Bool.or_eq_true, beq_iff_eq] at h
  tauto

theorem ws_cases {x : Char} (h : isWsChar x = true) :
    x = ' ' ∨ x = '\t' ∨ x = '\n' ∨ x = '\r' ∨ x = '\x0b' ∨ x = '\x0c' := by
  simp only [isWsChar, Bool.or_eq_true, beq_iff_eq] at h
  tauto

theorem digit_not_ws {x : Char} (h : isDigitChar x = true) :
    isWsChar x = false := by
  rcases digit_cases h with rfl | rfl | rfl | rfl | rfl | rfl | rfl | rfl | rfl | rfl <;>
    decide

theorem ws_not_digit {x : Char} (h : isWsChar x = true) :
    isDigitChar x = false := by
  rcases ws_cases h with rfl | rfl | rfl | rfl | rfl | rfl <;> decide

theorem ws_toLower_self {x : Char} (h : isWsChar x = true) : x.toLower = x := by
  rcases ws_cases h with rfl | rfl | rfl | rfl | rfl | rfl <;> decide

theorem dropWhile_head_false {p : α → Bool} {x : α} (xs : List α)
    (h : p x = false) : (x :: xs).dropWhile p = x :: xs := by
  simp [List.dropWhile, h]

theorem takeWhile_head_false {p : α → Bool} {x : α} (xs : List α)
    (h : p x = false) : (x :: xs).takeWhile p = [] := by
  simp [List.takeWhile, h]

theorem dropWhile_append_all {p : α → Bool} :
    ∀ {l₁ : List α}, (∀ x ∈ l₁, p x = true) →
      ∀ l₂, (l₁ ++ l₂).dropWhile p = l₂.dropWhile p := by
  intro l₁
  induction l₁ with
  | nil => intro _ l₂; rfl
  | cons x xs ih =>
    intro h l₂
    rw [List.cons_append]
    have hx : p x = true := h x (List.mem_cons_self _ _)
    simp only [List.dropWhile, hx]
    exact ih (fun y hy => h y (List.mem_cons_of_mem _ hy)) l₂

theorem takeWhile_append_all {p : α → Bool} :
    ∀ {l₁ : List α}, (∀ x ∈ l₁, p x = true) →
      ∀ l₂, (l₁ ++ l₂).takeWhile p = l₁ ++ l₂.takeWhile p := by
  intro l₁
  induction l₁ with
  | nil => intro _ l₂; rfl
  | cons x xs ih =>
    intro h l₂
    rw [List.cons_append]
    have hx : p x = true := h x (List.mem_cons_self _ _)
    simp only [List.takeWhile, hx]
    rw [ih (fun y hy => h y (List.mem_cons_of_mem _ hy)) l₂]
    rfl

theorem drop_takeWhile_length {p : α → Bool} :
    ∀ l : List α, l.drop (l.takeWhile p).length = l.dropWhile p := by
  intro l
  induction l with
  | nil => rfl
  | cons x xs ih =>
    by_cases hx : p x
    · simp only [List.takeWhile, List.dropWhile, hx]
      simpa using ih
    · simp only [List.takeWhile, List.dropWhile, Bool.not_eq_true] at hx ⊢
      simp [hx]

theorem spelling_shape {unit : Str} (h : unit ∈ relUnitSpellings) :
    ∃ c0 rest, unit = c0 :: rest ∧
      (c0 = 'm' ∨ c0 = 'h' ∨ c0 = 'd' ∨ c0 = 'w') := by
  simp only [relUnitSpellings, List.mem_cons, List.not_mem_nil, or_false] at h
  rcases h with rfl | rfl | rfl | rfl | rfl | rfl | rfl | rfl | rfl | rfl | rfl | rfl | rfl | rfl <;>
    exact ⟨_, _, rfl, by decide⟩

theorem spelling_head_char {u0 : Char} {u' unit : Str}
    (hl : lowerStr (u0 :: u') = unit) (hu : unit ∈ relUnitSpellings) :
    isWsChar u0 = false ∧ isDigitChar u0 = false := by
  obtain ⟨c0, rest, hshape, hc0⟩ := spelling_shape hu
  have h0 : u0.toLower = c0 := by
    rw [hshape] at hl
    simp only [lowerStr, List.map_cons] at hl
    exact (List.cons.injEq .. |>.mp hl).1
  constructor
  · by_cases hws : isWsChar u0
    · exfalso
      rw [ws_toLower_self hws] at h0
      subst h0
      rcases hc0 with h | h | h | h <;> rw [h] at hws <;> exact absurd hws (by decide)
    · simpa using hws
  · by_cases hd : isDigitChar u0
    · exfalso
      rcases digit_cases hd with rfl | rfl | rfl | rfl | rfl | rfl | rfl | rfl | rfl | rfl <;>
        rcases hc0 with rfl | rfl | rfl | rfl <;> revert h0 <;> decide
    · simpa using hd

theorem relTimeMatch_complete {input ds unit : Str}
    (h : RecognizedRelPhrase input ds unit) :
    relTimeMatch input = some (ds, unit) := by
  obtain ⟨iCh, nCh, w1, w2, u, hinput, hi, hn, hw1ne, hw1, hw2, hds, hu, huspell⟩ := h
  obtain ⟨wc, w1', rfl⟩ : ∃ wc w1', w1 = wc :: w1' := by
    cases w1 with
    | nil => exact absurd rfl hw1ne
    | cons wc w1' => exact ⟨wc, w1', rfl⟩
  rw [List.all_eq_true] at hw1 hw2
  have hwc : isWsChar wc = true := hw1 wc (List.mem_cons_self _ _)
  have hw1' : ∀ x ∈ w1', isWsChar x = true :=
    fun x hx => hw1 x (List.mem_cons_of_mem _ hx)
  obtain ⟨d0, ds', rfl⟩ : ∃ d0 ds', ds = d0 :: ds' := by
    cases ds with
    | nil => exact absurd hds (by simp [allDigits])
    | cons d0 ds' => exact ⟨d0, ds', rfl⟩
  have hdall : ∀ x ∈ d0 :: ds', isDigitChar x = true := (allDigits_iff.mp hds).2
  obtain ⟨u0, u', rfl⟩ : ∃ u0 u', u = u0 :: u' := by
    obtain ⟨c0, rest, hshape, -⟩ := spelling_shape huspell
    cases u with
    | nil => rw [hshape] at hu; cases hu
    | cons u0 u' => exact ⟨u0, u', rfl⟩
  obtain ⟨hu0ws, hu0d⟩ := spelling_head_char hu huspell
  subst hinput
  rw [List.cons_append]
  simp only [relTimeMatch]
  rw [if_pos ⟨hi, hn, hwc⟩]
  have h3 : (w1' ++ ((d0 :: ds') ++ (w2 ++ (u0 :: u')))).dropWhile isWsChar
      = (d0 :: ds') ++ (w2 ++ (u0 :: u')) := by
    rw [dropWhile_append_all hw1', List.cons_append]
    exact dropWhile_head_false _ (digit_not_ws (hdall d0 (List.mem_cons_self _ _)))
  have h4 : ((d0 :: ds') ++ (w2 ++ (u0 :: u'))).takeWhile isDigitChar
      = d0 :: ds' := by
    rw [takeWhile_append_all hdall]
    have htail : (w2 ++ (u0 :: u')).takeWhile isDigitChar = [] := by
      cases w2 with
      | nil =>
        rw [List.nil_append]
        exact takeWhile_head_false _ hu0d
      | cons wc2 w2' =>
        rw [List.cons_append]
        exact takeWhile_head_false _
          (ws_not_digit (hw2 wc2 (List.mem_cons_self _ _)))
    rw [htail, List.append_nil]
  have h5 : ((d0 :: ds') ++ (w2 ++ (u0 :: u'))).drop (d0 :: ds').length
      = w2 ++ (u0 :: u') := List.drop_left _ _
  have h6 : (w2 ++ (u0 :: u')).dropWhile isWsChar = u0 :: u' := by
    rw [dropWhile_append_all (fun x hx => hw2 x hx)]
    exact dropWhile_head_false _ hu0ws
  simp only [h3, h4, h5, h6, hu]
  rw [if_pos ⟨by simp, huspell⟩]

theorem relTimeMatch_sound {input ds unit : Str}
    (h : relTimeMatch input = some (ds, unit)) :
    RecognizedRelPhrase input ds unit := by
  rcases input with _ | ⟨iCh, _ | ⟨nCh, _ | ⟨w, rest2⟩⟩⟩
  · cases h
  · cases h
  · cases h
  · simp only [relTimeMatch] at h
    by_cases hcond : iCh.toLower = 'i' ∧ nCh.toLower = 'n' ∧ isWsChar w = true
    · rw [if_pos hcond] at h
      obtain ⟨hi, hn, hw⟩ := hcond
      by_cases hcond2 : (rest2.dropWhile isWsChar).takeWhile isDigitChar ≠ [] ∧
          lowerStr (((rest2.dropWhile isWsChar).drop
            ((rest2.dropWhile isWsChar).takeWhile isDigitChar).length).dropWhile
              isWsChar) ∈ relUnitSpellings
      · rw [if_pos hcond2] at h
        obtain ⟨hdne, hus⟩ := hcond2
        rw [Option.some.injEq, Prod.mk.injEq] at h
        obtain ⟨hds, hunit⟩ := h
        subst hds
        subst hunit
        refine ⟨iCh, nCh, w :: rest2.takeWhile isWsChar,
          ((rest2.dropWhile isWsChar).drop
            ((rest2.dropWhile isWsChar).takeWhile isDigitChar).length).takeWhile
              isWsChar,
          ((rest2.dropWhile isWsChar).drop
            ((rest2.dropWhile isWsChar).takeWhile isDigitChar).length).dropWhile
              isWsChar,
          ?_, hi, hn, by simp, ?_, ?_, ?_, rfl, hus⟩
        · rw [List.cons_append]
          rw [drop_takeWhile_length, List.takeWhile_append_dropWhile,
            List.takeWhile_append_dropWhile, List.takeWhile_append_dropWhile]
        · rw [List.all_eq_true]
          intro x hx
          rcases List.mem_cons.mp hx with rfl | hx
          · exact hw
          · exact List.mem_takeWhile_imp hx
        · rw [List.all_eq_true]
          intro x hx
          exact List.mem_takeWhile_imp hx
        · rw [allDigits_iff]
          exact ⟨hdne, fun x hx => List.mem_takeWhile_imp hx⟩
      · rw [if_neg hcond2] at h
        cases h
    · rw [if_neg hcond] at h
      cases h

theorem parse_unit_branch {unit : Str} (h : unit ∈ relUnitSpellings)
    (now amount : Int) :
    (if unit.take 3 = "min".data then some (now + amount * 60000)
     else if unit.take 4 = "hour".data ∨ unit.take 2 = "hr".data then
       some (now + amount * 3600000)
     else if unit.take 3 = "day".data then some (now + amount * 86400000)
     else if unit.take 4 = "week".data ∨ unit.take 2 = "wk".data then
       some (now + amount * 604800000)
     else none)
      = some (now + amount * relUnitMs unit) := by
  simp only [relUnitSpellings, List.mem_cons, List.not_mem_nil, or_false] at h
  rcases h with rfl | rfl | rfl | rfl | rfl | rfl | rfl | rfl | rfl | rfl | rfl | rfl | rfl | rfl <;>
    rfl

/-- Claim C5 counterexample: for a process running at UTC offset 0 while
Europe/Paris is at +1h, parsing `in 20 minutes` at real instant 0 yields
epoch 4 800 000 ms (the Paris wall-clock shift leaks into the absolute
instant), not the claimed `now + 20 minutes` = 1 200 000 ms. -/
theorem parseRelativeTime_counterexample :
    parseRelativeTime ⟨0, 0, 3600000⟩ ("in 20 minutes".data) = some 4800000 ∧
    parseRelativeTime ⟨0, 0, 3600000⟩ ("in 20 minutes".data)
      ≠ some ((0 : Int) + 20 * 60000) := by
  constructor
  · decide
  · decide

/-- Claim C5, amended (corrected): a recognized `in N unit` phrase parses
to `nowInParis() + N·unit` — the epoch of the Paris-shifted clock, i.e.
real now plus the (Paris − local) offset difference plus N·unit — which
equals the claimed `now + N·unit` exactly when the process's offset equals
the Paris offset; any unrecognized input yields `null` (and the parser is
total, so no fault is thrown). -/
theorem parseRelativeTime_spec (c : Clock) :
    (∀ input ds unit, RecognizedRelPhrase input ds unit →
      parseRelativeTime c input
        = some (nowInParis c + (digitsToNat ds : Int) * relUnitMs unit)) ∧
    (∀ input, (∀ ds unit, ¬ RecognizedRelPhrase input ds unit) →
      parseRelativeTime c input = none) ∧
    (c.localOffsetMs = c.parisOffsetMs →
      ∀ input ds unit, RecognizedRelPhrase input ds unit →
        parseRelativeTime c input
          = some (c.realNow + (digitsToNat ds : Int) * relUnitMs unit)) := by
  have h1 : ∀ input ds unit, RecognizedRelPhrase input ds unit →
      parseRelativeTime c input
        = some (nowInParis c + (digitsToNat ds : Int) * relUnitMs unit) := by
    intro input ds unit h
    have huspell : unit ∈ relUnitSpellings := by
      obtain ⟨_, _, _, _, _, _, _, _, _, _, _, _, _, hsp⟩ := h
      exact hsp
    have hm := relTimeMatch_complete h
    simp only [parseRelativeTime, hm]
    exact parse_unit_branch huspell (nowInParis c) (digitsToNat ds)
  refine ⟨h1, ?_, ?_⟩
  · intro input hnone
    rcases hm : relTimeMatch input with _ | ⟨ds, unit⟩
    · simp only [parseRelativeTime, hm]
    · exact absurd (relTimeMatch_sound hm) (hnone ds unit)
  · intro heq input ds unit h
    rw [h1 input ds unit h]
    have hnow : nowInParis c = c.realNow := by
      rw [nowInParis, toZonedTimeParis, heq]
      omega
    rw [hnow]

/-- Witness for `parseRelativeTime_spec`: `in 20 minutes` parses to
`nowInParis + 20 minutes` on the skewed clock of the counterexample. -/
theorem parseRelativeTime_spec_witness :
    parseRelativeTime ⟨0, 0, 3600000⟩ ("in 20 minutes".data)
      = some (nowInParis ⟨0, 0, 3600000⟩
          + (digitsToNat ['2', '0'] : Int) * relUnitMs ("minutes".data)) :=
  (parseRelativeTime_spec ⟨0, 0, 3600000⟩).1 _ ['2', '0'] ("minutes".data)
    ⟨'i', 'n', [' '], [' '], "minutes".data, rfl, by decide, by decide,
      by decide, by decide, by decide, by decide, by decide, by decide⟩

end AndreBot
